import Mathlib

/-!
Verification development for the `htmlpretty` HTML5 pretty-printer
(package `htmlpretty`, file `print.go`).

Go strings are modelled as lists of characters (`Str`); Go's `len` on a
string counts UTF-8 bytes, modelled by `blen` via `Char.utf8Size`.
The printer state and the recursive tree walk of `print.go` are embedded
as executable Lean functions; the walk carries a fuel argument so that
all recursion is structural (the public entry point supplies a fuel that
is provably sufficient, `Node.weight`).
-/

namespace HtmlPretty

/-- Go strings, as lists of characters. -/
abbrev Str := List Char

/-- Byte length of a string, as Go's `len` computes it on UTF-8 data. -/
def blen (s : Str) : Nat := (s.map Char.utf8Size).sum

/-- `strings.Repeat`: the string repeated `n` times.  (Go panics on a
negative count; the printer only calls it with the non-negative
indentation level, see the C10 theorems.) -/
def repeatStr (s : Str) (n : Nat) : Str := (List.replicate n s).flatten

/-- An HTML attribute: key and value (`html.Attribute`).  The key is kept
as a `String` since it is only compared against literal names. -/
structure Attr where
  key : String
  val : Str
deriving Repr

/-- The parsed HTML node tree (`html.Node` restricted to the node kinds
the printer handles: Document, Doctype, Element, Text, Comment).
Parent and sibling links of the Go tree are recovered during the walk
from the child lists. -/
inductive Node where
  | document (children : List Node)
  | doctype (data : Str)
  | element (tag : String) (attrs : List Attr) (children : List Node)
  | text (data : Str)
  | comment (data : Str)
deriving Repr

/-- What `tagSet.has` and the `prevTextNotSpace` test need to know about a
neighbouring node (`n.Parent`, `n.PrevSibling`, `n.NextSibling`): whether
it is an element and its tag, or a text node and its data. -/
inductive NodeRef where
  | elem (tag : String)
  | text (data : Str)
  | other
deriving Repr, DecidableEq

/-- The summary of a node used for sibling/parent context. -/
def nodeRef : Node → NodeRef
  | .element t _ _ => .elem t
  | .text d => .text d
  | _ => .other

/-- Void elements (`voidTags` in print.go). -/
def voidTags : List String :=
  ["area", "base", "br", "col", "embed", "hr", "img", "input", "link",
   "meta", "param", "source", "track", "wbr"]

/-- Elements that appear inline (`inlineTags`). -/
def inlineTags : List String :=
  ["a", "abbr", "acronym", "amp-img", "b", "big", "cite", "code", "data",
   "def", "del", "dfn", "em", "i", "img", "ins", "kbd", "mark", "picture",
   "q", "s", "small", "span", "source", "strong", "sub", "sup", "svg",
   "time", "tt", "u", "wbr"]

/-- Elements whose children are indented on their own lines even when the
tag is inline (`listTags`). -/
def listTags : List String := ["amp-img", "ol", "picture", "svg", "ul"]

/-- Non-void elements whose closing tags are omitted (`omitCloseTags`). -/
def omitCloseTags : List String := ["li"]

/-- Elements whose contents are preserved unchanged (`literalTags`). -/
def literalTags : List String := ["noscript", "script", "style"]

/-- Elements whose contents keep their whitespace but are still escaped
(`keepSpaceTags`). -/
def keepSpaceTags : List String := ["pre"]

/-- `tagSet.has` on a neighbouring node reference: true iff the node
exists, is an element, and its tag is in the set. -/
def refHas (ts : List String) : Option NodeRef → Bool
  | some (.elem t) => ts.contains t
  | _ => false

/-- The five ASCII whitespace characters of the `whitespace` regexp
`[\t\n\f\r ]+` (TAB, LF, FF, CR, SPACE). -/
def isWS (c : Char) : Bool :=
  c = '\t' || c = '\n' || c = '\x0c' || c = '\r' || c = ' '

/-- Go's `unicode.IsSpace` (the White_Space property): the characters
`strings.TrimSpace` and `strings.Fields` split on. -/
def goIsSpace (c : Char) : Bool :=
  isWS c || c = '\x0b' || c = '\u0085' || c = '\u00A0' || c = '\u1680' ||
  ('\u2000' <= c && c <= '\u200A') || c = '\u2028' || c = '\u2029' ||
  c = '\u202F' || c = '\u205F' || c = '\u3000'

/-- `whitespace.ReplaceAllString(s, " ")`: replace every maximal run of
ASCII whitespace by a single space.  The flag records whether we are
currently inside a run (whose single space has already been emitted). -/
def collapseWSAux : Bool → Str → Str
  | _, [] => []
  | inRun, c :: rest =>
    if isWS c then
      if inRun then collapseWSAux true rest
      else ' ' :: collapseWSAux true rest
    else c :: collapseWSAux false rest

/-- `whitespace.ReplaceAllString(s, " ")`. -/
def collapseWS (s : Str) : Str := collapseWSAux false s

/-- `strings.TrimLeft(s, " ")`. -/
def trimLeftSpaces (s : Str) : Str := s.dropWhile (fun c => c = ' ')

/-- `strings.TrimRight(s, " ")`. -/
def trimRightSpaces (s : Str) : Str :=
  (trimLeftSpaces s.reverse).reverse

/-- `strings.TrimSpace` (trims Unicode whitespace on both ends). -/
def goTrimSpace (s : Str) : Str :=
  ((s.dropWhile goIsSpace).reverse.dropWhile goIsSpace).reverse

/-- Helper for `goFields`: `acc` holds the current word, reversed. -/
def goFieldsAux : Option Str → Str → List Str
  | none, [] => []
  | some w, [] => [w.reverse]
  | cur, c :: rest =>
    if goIsSpace c then
      match cur with
      | none => goFieldsAux none rest
      | some w => w.reverse :: goFieldsAux none rest
    else goFieldsAux (some (c :: cur.getD [])) rest

/-- `strings.Fields`: the maximal runs of non-whitespace characters. -/
def goFields (s : Str) : List Str := goFieldsAux none s

/-- `escapeText` maps `&`, `<`, `>` to their entities.  print.go applies
three sequential `strings.Replace` passes; since none of the replacement
strings contains a character replaced by a later pass (and replacements
are never re-scanned), the three passes coincide with this single
character-by-character expansion. -/
def escapeChar (c : Char) : Str :=
  if c = '&' then "&amp;".data
  else if c = '<' then "&lt;".data
  else if c = '>' then "&gt;".data
  else [c]

/-- `escapeText(s)`. -/
def escapeText (s : Str) : Str := (s.map escapeChar).flatten

/-- `collapseText(s, n)`: collapse whitespace runs, then drop leading and
trailing whitespace depending on the inline-ness of the parent and of the
previous/next siblings. -/
def collapseText (s : Str) (prev next parent : Option NodeRef) : Str :=
  let s := collapseWS s
  if !refHas inlineTags parent then
    let s := if !refHas inlineTags prev then trimLeftSpaces s else s
    if !refHas inlineTags next then trimRightSpaces s else s
  else s

/-- `closeTag(n)` for an element with the given tag: empty for void and
omit-close elements.  (The Go function also returns `""` for non-element
nodes; it is only called on elements.) -/
def closeTagStr (tag : String) : Str :=
  if voidTags.contains tag || omitCloseTags.contains tag then []
  else "</".data ++ tag.data ++ ">".data

/-- Walk errors: the `error` returns of `doc`/`element` (`structural`),
the `panic` calls (`panicked`), and fuel exhaustion of the embedding
(`fuelOut`; never reached when the entry point's fuel bound is used). -/
inductive PErr where
  | structural (msg : String)
  | panicked (msg : String)
  | fuelOut
deriving Repr, DecidableEq

/-- What `Print` returns on failure: an error from the walk, or the first
write error recorded in `printer.werr` (error values from the sink are
modelled as numeric codes). -/
inductive PrintError where
  | walkErr (e : PErr)
  | ioErr (e : Nat)
deriving Repr, DecidableEq

/-- The printer state (`printer` struct).  `resp` models the output sink
`w`: `resp k` is the result of the `k`-th write that reaches the sink
(`none` = success, `some e` = failure with error code `e`); a failing
write delivers no bytes.  `out` is the bytes accepted by the sink and
`wlog` the list of accepted write payloads (a log used only to reason
about emitted tokens).  The counters are `Int` as in Go. -/
structure Printer where
  resp : Nat → Option Nat
  nwrites : Nat
  out : Str
  wlog : List Str
  werr : Option Nat
  indentStr : Str
  wrapWidth : Int
  level : Int
  literalDepth : Int
  keepSpaceDepth : Int
  lineStart : Bool
  lineWidth : Int

/-- `printer.inLiteral`. -/
def Printer.inLiteral (p : Printer) : Bool := p.literalDepth > 0

/-- `printer.inKeepSpace`. -/
def Printer.inKeepSpace (p : Printer) : Bool := p.keepSpaceDepth > 0

/-- Enter a literal region (`p.literalDepth++`). -/
def incLit1 (p : Printer) : Printer := { p with literalDepth := p.literalDepth + 1 }

/-- Leave a literal region (`p.literalDepth--`). -/
def decLit1 (p : Printer) : Printer := { p with literalDepth := p.literalDepth - 1 }

/-- Enter a keep-space region (`p.keepSpaceDepth++`). -/
def incKeep1 (p : Printer) : Printer := { p with keepSpaceDepth := p.keepSpaceDepth + 1 }

/-- Leave a keep-space region (`p.keepSpaceDepth--`). -/
def decKeep1 (p : Printer) : Printer := { p with keepSpaceDepth := p.keepSpaceDepth - 1 }

/-- Increase the indentation level (`p.level++`). -/
def incLevel1 (p : Printer) : Printer := { p with level := p.level + 1 }

/-- Decrease the indentation level (`p.level--`). -/
def decLevel1 (p : Printer) : Printer := { p with level := p.level - 1 }

/-- Apply `f` when `b` holds (the `if cond { ... }` pattern of the Go
walker, lifted to a combinator so proofs can name intermediate states). -/
def condStep (b : Bool) (f : Printer → Printer) (p : Printer) : Printer :=
  if b then f p else p

/-- `printer.write(s)`: no-op once `werr` is set; otherwise sends `s` to
the sink, records the first error, clears `lineStart`, and advances
`lineWidth` by the byte length of `s` (as the Go code does even when the
write fails). -/
def Printer.write (p : Printer) (s : Str) : Printer :=
  if p.werr.isSome then p
  else
    match p.resp p.nwrites with
    | none =>
      { p with nwrites := p.nwrites + 1, out := p.out ++ s,
               wlog := p.wlog ++ [s],
               lineStart := false, lineWidth := p.lineWidth + (blen s : Int) }
    | some e =>
      { p with nwrites := p.nwrites + 1, werr := some e,
               lineStart := false, lineWidth := p.lineWidth + (blen s : Int) }

/-- `printer.endl()`. -/
def Printer.endl (p : Printer) : Printer :=
  if p.inLiteral || p.inKeepSpace then p
  else if p.lineStart then p
  else
    let p := p.write ['\n']
    { p with lineStart := true, lineWidth := 0 }

/-- `printer.maybeIndent()`. -/
def Printer.maybeIndent (p : Printer) : Printer :=
  if p.inLiteral || p.inKeepSpace || !p.lineStart then p
  else p.write (repeatStr p.indentStr p.level.toNat)

/-- `printer.wrap(s, extra)`. -/
def Printer.wrap (p : Printer) (s extra : Str) : Printer :=
  if !p.inLiteral && !p.inKeepSpace &&
      p.wrapWidth > 0 && p.lineWidth + (blen s : Int) > p.wrapWidth then
    let p := p.endl
    let p := p.maybeIndent
    p.write (extra ++ trimLeftSpaces s)
  else p.write s

/-- The state change before printing children (`element`, lines 159-166):
for nested children, end the line (unless the closing tag is omitted) and
increase the indentation level. -/
def enterKids (doNest omitClose : Bool) (p : Printer) : Printer :=
  if doNest then incLevel1 (if !omitClose then p.endl else p) else p

/-- The state change after printing children (`element`, lines 188-191):
for nested children, decrease the indentation level and end the line. -/
def leaveKids (doNest : Bool) (p : Printer) : Printer :=
  if doNest then (decLevel1 p).endl else p

/-- One attribute token of the opening tag: ` key` or ` key="value"`,
with `"` escaped in the value and, for `class`, whitespace collapsed and
trimmed (in that order, as in `openTag`). -/
def attrToken (a : Attr) : Str :=
  " ".data ++ a.key.data ++
  (if a.val.length > 0 then
     let val := (a.val.map (fun c =>
       if c = '"' then "&quot;".data else [c])).flatten
     let val := if a.key = "class" then goTrimSpace (collapseWS val) else val
     "=\"".data ++ val ++ "\"".data
   else [])

/-- Append `x` to the last element of a token list (fusing the closing
`>` onto the final token). -/
def fuseLast : List Str → Str → List Str
  | [], _ => []
  | [t], x => [t ++ x]
  | t :: rest, x => t :: fuseLast rest x

/-- The opening-tag tokens `[<tag, ␣k=..., ..., ␣k=...>]` built at the
top of `openTag`. -/
def openTagTokens (tag : String) (attrs : List Attr) : List Str :=
  fuseLast (("<".data ++ tag.data) :: attrs.map attrToken) ">".data

/-- `prevTextNotSpace`: the previous sibling is a text node that is empty
or does not end in ASCII whitespace.  (Go tests the last *byte* of the
data against the whitespace regexp; on UTF-8 data the last byte of a
multi-byte character never matches an ASCII class, so testing the last
character is equivalent.) -/
def prevTextNotSpace : Option NodeRef → Bool
  | some (.text d) =>
    match d.getLast? with
    | none => true
    | some c => !isWS c
  | _ => false

/-- `startSpaceMatters` in `openTag`. -/
def startSpaceMattersF (prev parent : Option NodeRef) : Bool :=
  refHas inlineTags prev || refHas inlineTags parent || prevTextNotSpace prev

/-- The `forceInline` decision of `openTag`, taken after the initial
`endl`/`maybeIndent` (so `p` is the state at that point): promote the
element when it is not literal/keep-space (nor inside such a region), it
has no children or a single text child, and opening tag + collapsed text
+ closing tag fit strictly within the wrap width (or wrapping is off).
`childLen` is `-1` in Go for other child shapes, modelled by the final
`false` branches. -/
def forceInlineF (tag : String) (children : List Node) (tagLen : Nat)
    (p : Printer) : Bool :=
  if !(literalTags.contains tag) && !p.inLiteral &&
      !(keepSpaceTags.contains tag) && !p.inKeepSpace then
    match children with
    | [] =>
      decide (p.lineWidth + ((tagLen + blen (closeTagStr tag) : Nat) : Int)
        < p.wrapWidth) || decide (p.wrapWidth ≤ 0)
    | [.text d] =>
      let cl := blen (collapseText (escapeText d) none none (some (.elem tag)))
      decide (p.lineWidth + ((tagLen + cl + blen (closeTagStr tag) : Nat) : Int)
        < p.wrapWidth) || decide (p.wrapWidth ≤ 0)
    | _ => false
  else false

/-- The `unwrapTokens`/`wrapIndent` pair of `openTag`: on a fresh line,
wrapped attribute continuations indent two extra levels and the first one
or two tokens are written unwrapped; mid-line, one token is written
unwrapped when a leading break would introduce visible whitespace. -/
def unwrapCount (tokens : List Str) (startedLine inline forceInline ssm : Bool)
    (p : Printer) : Nat × Str :=
  if startedLine then
    let wrapIndent := repeatStr p.indentStr 2
    (if blen (tokens.headD []) < blen wrapIndent then 2 else 1, wrapIndent)
  else if (inline || forceInline) && ssm then (1, [])
  else (0, [])

/-- The token-emission loop at the bottom of `openTag`: the first
`unwrap` tokens via `write`, the rest via `wrap`. -/
def writeTokens (unwrap : Nat) (wrapIndent : Str) :
    Nat → List Str → Printer → Printer
  | _, [], p => p
  | i, t :: rest, p =>
    let p := if i < unwrap then p.write t else p.wrap t wrapIndent
    writeTokens unwrap wrapIndent (i + 1) rest p

/-- The initial line-break decision of `openTag`: non-inline tags start a
fresh line, and inline tags do too when the whole opening tag would be
wrapped and no implied whitespace is at stake. -/
def openTagEndl (tag : String) (tagLen : Nat) (prev parent : Option NodeRef)
    (p : Printer) : Printer :=
  let inline := inlineTags.contains tag
  let wouldWrap := p.wrapWidth > 0 && p.lineWidth + (tagLen : Int) > p.wrapWidth
  let ssm := startSpaceMattersF prev parent
  if !inline || (wouldWrap && !ssm) then p.endl else p

/-- `openTag(n)` for an element with tag `tag`, attributes `attrs` and
children `children`; `prev`/`parent` are the sibling/parent context.
Returns the `forceInline` flag and the updated printer. -/
def openTagF (tag : String) (attrs : List Attr) (children : List Node)
    (prev parent : Option NodeRef) (p : Printer) : Bool × Printer :=
  let tokens := openTagTokens tag attrs
  let tagLen := blen tokens.flatten
  let ssm := startSpaceMattersF prev parent
  let p := openTagEndl tag tagLen prev parent p
  let startedLine := p.lineStart
  let p := p.maybeIndent
  let forceInline := forceInlineF tag children tagLen p
  let uw := unwrapCount tokens startedLine (inlineTags.contains tag) forceInline ssm p
  (forceInline, writeTokens uw.1 uw.2 0 tokens p)

/-- The word-emission loop of `text`: word `i` gets a leading space when
it is not the first or the text started with a space, the last word gets
a trailing space back when the text ended with one, and the first
`wrapStart` words are written without wrap eligibility. -/
def writeWords (startSpace endSpace : Bool) (wrapStart total : Nat) :
    Nat → List Str → Printer → Printer
  | _, [], p => p
  | i, w :: rest, p =>
    let w := if (i = 0 && startSpace) || i ≠ 0 then ' ' :: w else w
    let w := if i = total - 1 && endSpace && w ≠ [' '] then w ++ [' '] else w
    let p := if i < wrapStart then p.write w else p.wrap w []
    writeWords startSpace endSpace wrapStart total (i + 1) rest p

/-- `text(n)` for a text node with data `d` and context `prev`/`next`/
`parent`.  (The Go function returns an `error` but every path returns
`nil`; the non-text-node panic is unreachable because `element` only
calls it on text nodes.) -/
def ptext (d : Str) (prev next parent : Option NodeRef) (p : Printer) :
    Printer :=
  if d.length = 0 then p
  else if p.inLiteral then p.write d
  else
    let s := escapeText d
    if p.inKeepSpace then p.write s
    else
      let s := collapseText s prev next parent
      if s = [] then p
      else
        let p := p.maybeIndent
        if s = [' '] then p.write [' ']
        else
          let startSpace := s.head? = some ' '
          let endSpace := s.getLast? = some ' '
          let wrapStart : Nat :=
            if (refHas inlineTags prev || refHas inlineTags parent) &&
                !startSpace then 1 else 0
          let words := goFields (goTrimSpace s)
          writeWords startSpace endSpace wrapStart words.length 0 words p

/-- The closing phase of `element` (from the `!omitClose` check to the
final `endl`): emit the closing tag with its own indentation, pop the
literal/keep-space depths, and end the line for non-inline elements. -/
def pelemClose (tag : String) (inline literal keepSpace omitClose : Bool)
    (p : Printer) : Printer × Option PErr :=
  let p := condStep (!omitClose) (fun q => (q.maybeIndent).write (closeTagStr tag)) p
  let p := condStep literal decLit1 p
  let p := condStep keepSpace decKeep1 p
  let p := condStep (!inline) Printer.endl p
  (p, none)


mutual

/-- `element(n)`: prints the opening tag, tracks literal/keep-space
depth, rejects void-and-literal tags (Go panics), recursively prints the
children, and emits the closing tag.  `fuel` only bounds the recursion
depth of the embedding; `Node.weight` fuel is always sufficient. -/
def pelemF : Nat → Node → Option NodeRef → Option NodeRef → Printer →
    Printer × Option PErr
  | 0, _, _, _, p => (p, some .fuelOut)
  | _ + 1, .document _, _, _, p =>
    (p, some (.structural "got non-element node"))
  | _ + 1, .doctype _, _, _, p =>
    (p, some (.structural "got non-element node"))
  | _ + 1, .text _, _, _, p =>
    (p, some (.structural "got non-element node"))
  | _ + 1, .comment _, _, _, p =>
    (p, some (.structural "got non-element node"))
  | fuel + 1, .element tag attrs children, prev, parent, p =>
    let res := openTagF tag attrs children prev parent p
    let forceInline := res.1
    let p := res.2
    let inline := inlineTags.contains tag || forceInline
    let literal := literalTags.contains tag
    let p := condStep literal incLit1 p
    let keepSpace := keepSpaceTags.contains tag
    let p := condStep keepSpace incKeep1 p
    if voidTags.contains tag then
      if literal || keepSpace then
        (p, some (.panicked "is both literal/keep-space and void"))
      else (p, none)
    else
      let listChildren := listTags.contains tag
      let omitClose := omitCloseTags.contains tag
      match children with
      | [] =>
        pelemClose tag inline literal keepSpace omitClose p
      | c :: rest =>
        let p := enterKids (!inline || listChildren) omitClose p
        let r := pkidsF fuel tag listChildren none (c :: rest) p
        match r.2 with
        | some e => (r.1, some e)
        | none =>
          let p := leaveKids (!inline || listChildren) r.1
          pelemClose tag inline literal keepSpace omitClose p

/-- The child loop of `element`: dispatch on the child's kind, threading
the previous-sibling reference (any node kind, as in the Go tree) and
passing the next sibling and the parent element as context. -/
def pkidsF : Nat → String → Bool → Option NodeRef → List Node → Printer →
    Printer × Option PErr
  | _, _, _, _, [], p => (p, none)
  | 0, _, _, _, _ :: _, p => (p, some .fuelOut)
  | fuel + 1, ptag, listCh, prevRef, c :: rest, p =>
    match c with
    | .element t a cs =>
      let r := pelemF fuel (.element t a cs) prevRef (some (.elem ptag)) p
      match r.2 with
      | some e => (r.1, some e)
      | none =>
        let p := condStep listCh Printer.endl r.1
        pkidsF fuel ptag listCh (some (.elem t)) rest p
    | .text d =>
      let p := ptext d prevRef (rest.head?.map nodeRef) (some (.elem ptag)) p
      pkidsF fuel ptag listCh (some (.text d)) rest p
    | .comment _ => pkidsF fuel ptag listCh (some .other) rest p
    | _ => (p, some (.structural "unexpected node"))

end

/-- The child loop of `doc`: a Doctype child emits a doctype line, an
Element child is printed recursively, anything else is a structural
error.  The previous-sibling reference is threaded as in the Go tree;
the parent is the Document node (never an element). -/
def pdocKids (fuel : Nat) : Option NodeRef → List Node → Printer →
    Printer × Option PErr
  | _, [], p => (p, none)
  | prevRef, c :: rest, p =>
    match c with
    | .doctype d =>
      let p := (p.write ("<!DOCTYPE ".data ++ d ++ ">".data)).endl
      pdocKids fuel (some .other) rest p
    | .element t a cs =>
      let r := pelemF fuel (.element t a cs) prevRef (some .other) p
      match r.2 with
      | some e => (r.1, some e)
      | none => pdocKids fuel (some (.elem t)) rest r.1
    | _ => (p, some (.structural "unhandled doc child"))

/-- `doc(n)`: the entry point of the walk; rejects non-Document roots. -/
def pdocF (fuel : Nat) (n : Node) (p : Printer) : Printer × Option PErr :=
  match n with
  | .document cs => pdocKids fuel none cs p
  | _ => (p, some (.structural "root node has non-document type"))

mutual

/-- A fuel bound sufficient for the walk over `n`: one unit per node plus
one per child-list step. -/
def Node.weight : Node → Nat
  | .document cs => 1 + weightList cs
  | .doctype _ => 1
  | .element _ _ cs => 1 + weightList cs
  | .text _ => 1
  | .comment _ => 1

/-- The fuel weight of a child list. -/
def weightList : List Node → Nat
  | [] => 0
  | c :: rest => 1 + Node.weight c + weightList rest

end

/-- A sink that accepts every write. -/
def okResp : Nat → Option Nat := fun _ => none

/-- The fresh printer state built at the top of `Print`. -/
def initPrinter (resp : Nat → Option Nat) (indent : Str) (wrap : Int) :
    Printer :=
  { resp := resp, nwrites := 0, out := [], wlog := [], werr := none,
    indentStr := indent, wrapWidth := wrap, level := 0, literalDepth := 0,
    keepSpaceDepth := 0, lineStart := true, lineWidth := 0 }

/-- `Print(w, root, indent, wrap)`: run the walk on a fresh printer; a
walk error is returned as-is, otherwise the first write error (if any)
is returned.  The final printer state is exposed alongside the returned
error. -/
def runPrint (resp : Nat → Option Nat) (root : Node) (indent : Str)
    (wrap : Int) : Printer × Option PrintError :=
  let p := initPrinter resp indent wrap
  let r := pdocF (Node.weight root) root p
  match r.2 with
  | some e => (r.1, some (.walkErr e))
  | none => (r.1, r.1.werr.map .ioErr)

/-- The bytes `Print` emits to a healthy sink. -/
def printOut (root : Node) (indent : Str) (wrap : Int) : Str :=
  (runPrint okResp root indent wrap).1.out

/-- The error `Print` returns with a healthy sink. -/
def printErr (root : Node) (indent : Str) (wrap : Int) : Option PrintError :=
  (runPrint okResp root indent wrap).2

/-- The log of write payloads accepted by a healthy sink during `Print`. -/
def printLog (root : Node) (indent : Str) (wrap : Int) : List Str :=
  (runPrint okResp root indent wrap).1.wlog

/-- Split a byte string into its lines at `'\n'` (the final entry is the
unterminated tail, possibly empty). -/
def splitOnNL : Str → List Str
  | [] => [[]]
  | c :: rest =>
    if c = '\n' then [] :: splitOnNL rest
    else
      match splitOnNL rest with
      | [] => [[c]]
      | l :: ls => (c :: l) :: ls

/-! ### Specification-side definitions and claim formalizations -/

/-- Spec side (C3): map every ASCII-whitespace character to a space. -/
def wsToSpace (s : Str) : Str := s.map (fun c => if isWS c then ' ' else c)

/-- Spec side (C3): merge adjacent spaces into one. -/
def squeezeSpaces : Str → Str
  | [] => []
  | [c] => [c]
  | c :: d :: rest =>
    if c = ' ' && d = ' ' then squeezeSpaces (d :: rest)
    else c :: squeezeSpaces (d :: rest)

/-- Spec side (C3): "replaces every maximal run of ASCII whitespace
(tab, LF, form feed, CR, space) in the text with a single space" —
every whitespace character becomes a space and adjacent spaces merge,
so each maximal run contributes exactly one space. -/
def collapseRunsSpec (s : Str) : Str := squeezeSpaces (wsToSpace s)

/-- Spec side (C3): remove one leading space, if present. -/
def dropOneLeadingSpace : Str → Str
  | ' ' :: rest => rest
  | s => s

/-- Spec side (C3): remove one trailing space, if present. -/
def dropOneTrailingSpace (s : Str) : Str :=
  (dropOneLeadingSpace s.reverse).reverse

/-- Spec side (C3), following the claim's words: collapse each maximal
whitespace run to one space, then remove a leading space exactly when
neither the parent nor the previous sibling is an inline element, and a
trailing space exactly when neither the parent nor the next sibling is
an inline element. -/
def collapseTextSpec (s : Str) (prev next parent : Option NodeRef) : Str :=
  let mid := collapseRunsSpec s
  let mid :=
    if !(refHas inlineTags parent) && !(refHas inlineTags prev) then
      dropOneLeadingSpace mid
    else mid
  if !(refHas inlineTags parent) && !(refHas inlineTags next) then
    dropOneTrailingSpace mid
  else mid

/-- All nodes in the list are text nodes. -/
def allText : List Node → Bool
  | [] => true
  | .text _ :: rest => allText rest
  | _ :: _ => false

/-- The data of a text node (empty for other kinds). -/
def textData : Node → Str
  | .text d => d
  | _ => []

mutual

/-- The hypothesis of claim C2 as stated: under every `script`, `style`,
and `noscript` element the only content is text nodes. -/
def litOnlyText : Node → Bool
  | .document cs => litOnlyTextList cs
  | .element t _ cs =>
    if literalTags.contains t then allText cs else litOnlyTextList cs
  | _ => true

/-- `litOnlyText` over a child list. -/
def litOnlyTextList : List Node → Bool
  | [] => true
  | c :: rest => litOnlyText c && litOnlyTextList rest

end

mutual

/-- Well-formedness for the amended claim C2: the root is a Document
whose children are doctypes and elements; element children are only
elements, text, or comments; void elements have no children (children
of void elements are never printed); and literal elements contain only
text. -/
def c2okN : Node → Bool
  | .document cs => c2okDocKids cs
  | .element tag _ cs =>
    (!(voidTags.contains tag) || cs.isEmpty) &&
    (if literalTags.contains tag then allText cs else c2okElemKids cs)
  | _ => false

/-- Document children allowed by `c2okN`. -/
def c2okDocKids : List Node → Bool
  | [] => true
  | .doctype _ :: rest => c2okDocKids rest
  | .element t a cs :: rest => c2okN (.element t a cs) && c2okDocKids rest
  | _ :: _ => false

/-- Element children allowed by `c2okN`. -/
def c2okElemKids : List Node → Bool
  | [] => true
  | .element t a cs :: rest => c2okN (.element t a cs) && c2okElemKids rest
  | .text _ :: rest => c2okElemKids rest
  | .comment _ :: rest => c2okElemKids rest
  | _ :: _ => false

end

mutual

/-- The literal payloads of a tree: for each `script`/`style`/`noscript`
element, the concatenated data of its text children. -/
def litTexts : Node → List Str
  | .document cs => litTextsList cs
  | .element t _ cs =>
    if literalTags.contains t then [(cs.map textData).flatten]
    else litTextsList cs
  | _ => []

/-- `litTexts` over a child list. -/
def litTextsList : List Node → List Str
  | [] => []
  | c :: rest => litTexts c ++ litTextsList rest

end

/-- A healthy printer: the sink accepts everything and no write error has
been recorded. -/
def OkP (p : Printer) : Prop := p.resp = okResp ∧ p.werr = none

/-- The line-tracking invariant of the printer: at the start of a line the
recorded line width is zero. -/
def LSinv (p : Printer) : Prop := p.lineStart = true → p.lineWidth = 0

/-- Claim C1 as stated, for a healthy sink: every output line is within
the wrap width, except a line that carries a single emitted token which
alone exceeds the width (formalized generously: the line is excused if
any single write payload inside it exceeds the width). -/
def claimC1 (root : Node) (ind : Str) (w : Int) : Prop :=
  ∀ line ∈ splitOnNL (printOut root ind w),
    (blen line : Int) ≤ w ∨
    ∃ t ∈ printLog root ind w, t <:+: line ∧ (blen t : Int) > w

/-- C1 counterexample input: a `<b>` element glued to preceding text; the
opening tag, the text, and the closing tag are all written without wrap
eligibility to avoid introducing whitespace. -/
def docC1ce : Node :=
  .document [.element "html" [] [.text "aa".data,
    .element "b" [] [.text "cc".data]]]

/-- C2 counterexample input: a literal element below a void element; the
void element's children are never printed. -/
def docC2ce : Node :=
  .document [.element "html" [] [.element "br" [] [
    .element "script" [] [.text "X".data]]]]

/-- C2 witness input: a script with a single text payload. -/
def docC2w : Node :=
  .document [.element "html" [] [.element "script" [] [.text "a<b".data]]]

/-- A sink that rejects every write with error code 7. -/
def failResp : Nat → Option Nat := fun _ => some 7

/-- C4 counterexample input: a doctype (whose write fails), followed by a
comment child that triggers a structural error. -/
def docC4ce : Node := .document [.doctype "html".data, .comment "x".data]

/-- C5 counterexample input: a document with two element children. -/
def docC5ce : Node :=
  .document [.element "div" [] [], .element "p" [] []]

/-- C6 counterexample input: a list-like `ol` element whose single short
text child fits on one line. -/
def docC6ce : Node := .document [.element "ol" [] [.text "x".data]]

/-- C9 counterexample input: a comment as a direct child of the root
Document node. -/
def docC9ce : Node := .document [.comment "x".data]

/-- The byte string `writeWords` reconstructs from the words after the
first: each later word is written with one leading space. -/
def joinTail (ws : List Str) : Str := (ws.map (fun w => ' ' :: w)).flatten

/-- The primitive printer transitions the walk is built from: the four
line-writer operations plus the record updates of `element` (entering and
leaving literal/keep-space regions and indentation levels). -/
inductive PStep : Printer → Printer → Prop where
  | write (p : Printer) (s : Str) : PStep p (p.write s)
  | endl (p : Printer) : PStep p p.endl
  | maybeIndent (p : Printer) : PStep p p.maybeIndent
  | wrap (p : Printer) (s extra : Str) : PStep p (p.wrap s extra)
  | incLit (p : Printer) : PStep p (incLit1 p)
  | decLit (p : Printer) : PStep p (decLit1 p)
  | incKeep (p : Printer) : PStep p (incKeep1 p)
  | decKeep (p : Printer) : PStep p (decKeep1 p)
  | incLevel (p : Printer) : PStep p (incLevel1 p)
  | decLevel (p : Printer) : PStep p (decLevel1 p)

/-- Reachability of one printer state from another through the walk's
primitive transitions. -/
def Reach : Printer → Printer → Prop := Relation.ReflTransGen PStep

/-- Both depth counters of the printer are non-negative. -/
def DepthOk (p : Printer) : Prop :=
  0 ≤ p.literalDepth ∧ 0 ≤ p.keepSpaceDepth

/-- A primitive transition whose target state keeps both depth counters
non-negative. -/
def SafeStep (a b : Printer) : Prop := PStep a b ∧ DepthOk b

/-- Reachability through primitive transitions all of whose intermediate
states keep both depth counters non-negative: a trace witness that the
counters are non-negative at every point of the walk. -/
def SafeReach : Printer → Printer → Prop := Relation.ReflTransGen SafeStep

/-! ### Field preservation by the line-writer primitives -/

@[simp] theorem write_resp (p : Printer) (s : Str) : (p.write s).resp = p.resp := by
  unfold Printer.write; split
  · rfl
  · split <;> rfl

@[simp] theorem write_indentStr (p : Printer) (s : Str) :
    (p.write s).indentStr = p.indentStr := by
  unfold Printer.write; split
  · rfl
  · split <;> rfl

@[simp] theorem write_wrapWidth (p : Printer) (s : Str) :
    (p.write s).wrapWidth = p.wrapWidth := by
  unfold Printer.write; split
  · rfl
  · split <;> rfl

@[simp] theorem write_level (p : Printer) (s : Str) : (p.write s).level = p.level := by
  unfold Printer.write; split
  · rfl
  · split <;> rfl

@[simp] theorem write_literalDepth (p : Printer) (s : Str) :
    (p.write s).literalDepth = p.literalDepth := by
  unfold Printer.write; split
  · rfl
  · split <;> rfl

@[simp] theorem write_keepSpaceDepth (p : Printer) (s : Str) :
    (p.write s).keepSpaceDepth = p.keepSpaceDepth := by
  unfold Printer.write; split
  · rfl
  · split <;> rfl

@[simp] theorem write_inLiteral (p : Printer) (s : Str) :
    (p.write s).inLiteral = p.inLiteral := by
  simp [Printer.inLiteral]

@[simp] theorem write_inKeepSpace (p : Printer) (s : Str) :
    (p.write s).inKeepSpace = p.inKeepSpace := by
  simp [Printer.inKeepSpace]

@[simp] theorem endl_resp (p : Printer) : p.endl.resp = p.resp := by
  unfold Printer.endl; split
  · rfl
  split
  · rfl
  · simp

@[simp] theorem endl_indentStr (p : Printer) : p.endl.indentStr = p.indentStr := by
  unfold Printer.endl; split
  · rfl
  split
  · rfl
  · simp

@[simp] theorem endl_wrapWidth (p : Printer) : p.endl.wrapWidth = p.wrapWidth := by
  unfold Printer.endl; split
  · rfl
  split
  · rfl
  · simp

@[simp] theorem endl_level (p : Printer) : p.endl.level = p.level := by
  unfold Printer.endl; split
  · rfl
  split
  · rfl
  · simp

@[simp] theorem endl_literalDepth (p : Printer) :
    p.endl.literalDepth = p.literalDepth := by
  unfold Printer.endl; split
  · rfl
  split
  · rfl
  · simp

@[simp] theorem endl_keepSpaceDepth (p : Printer) :
    p.endl.keepSpaceDepth = p.keepSpaceDepth := by
  unfold Printer.endl; split
  · rfl
  split
  · rfl
  · simp

@[simp] theorem endl_inLiteral (p : Printer) : p.endl.inLiteral = p.inLiteral := by
  simp [Printer.inLiteral]

@[simp] theorem endl_inKeepSpace (p : Printer) :
    p.endl.inKeepSpace = p.inKeepSpace := by
  simp [Printer.inKeepSpace]

@[simp] theorem maybeIndent_resp (p : Printer) : p.maybeIndent.resp = p.resp := by
  unfold Printer.maybeIndent; split
  · rfl
  · simp

@[simp] theorem maybeIndent_indentStr (p : Printer) :
    p.maybeIndent.indentStr = p.indentStr := by
  unfold Printer.maybeIndent; split
  · rfl
  · simp

@[simp] theorem maybeIndent_wrapWidth (p : Printer) :
    p.maybeIndent.wrapWidth = p.wrapWidth := by
  unfold Printer.maybeIndent; split
  · rfl
  · simp

@[simp] theorem maybeIndent_level (p : Printer) : p.maybeIndent.level = p.level := by
  unfold Printer.maybeIndent; split
  · rfl
  · simp

@[simp] theorem maybeIndent_literalDepth (p : Printer) :
    p.maybeIndent.literalDepth = p.literalDepth := by
  unfold Printer.maybeIndent; split
  · rfl
  · simp

@[simp] theorem maybeIndent_keepSpaceDepth (p : Printer) :
    p.maybeIndent.keepSpaceDepth = p.keepSpaceDepth := by
  unfold Printer.maybeIndent; split
  · rfl
  · simp

@[simp] theorem maybeIndent_inLiteral (p : Printer) :
    p.maybeIndent.inLiteral = p.inLiteral := by
  simp [Printer.inLiteral]

@[simp] theorem maybeIndent_inKeepSpace (p : Printer) :
    p.maybeIndent.inKeepSpace = p.inKeepSpace := by
  simp [Printer.inKeepSpace]

@[simp] theorem wrap_resp (p : Printer) (s extra : Str) :
    (p.wrap s extra).resp = p.resp := by
  unfold Printer.wrap; split <;> simp

@[simp] theorem wrap_indentStr (p : Printer) (s extra : Str) :
    (p.wrap s extra).indentStr = p.indentStr := by
  unfold Printer.wrap; split <;> simp

@[simp] theorem wrap_wrapWidth (p : Printer) (s extra : Str) :
    (p.wrap s extra).wrapWidth = p.wrapWidth := by
  unfold Printer.wrap; split <;> simp

@[simp] theorem wrap_level (p : Printer) (s extra : Str) :
    (p.wrap s extra).level = p.level := by
  unfold Printer.wrap; split <;> simp

@[simp] theorem wrap_literalDepth (p : Printer) (s extra : Str) :
    (p.wrap s extra).literalDepth = p.literalDepth := by
  unfold Printer.wrap; split <;> simp

@[simp] theorem wrap_keepSpaceDepth (p : Printer) (s extra : Str) :
    (p.wrap s extra).keepSpaceDepth = p.keepSpaceDepth := by
  unfold Printer.wrap; split <;> simp

@[simp] theorem wrap_inLiteral (p : Printer) (s extra : Str) :
    (p.wrap s extra).inLiteral = p.inLiteral := by
  simp [Printer.inLiteral]

@[simp] theorem wrap_inKeepSpace (p : Printer) (s extra : Str) :
    (p.wrap s extra).inKeepSpace = p.inKeepSpace := by
  simp [Printer.inKeepSpace]

/-! ### Behaviour of the primitives: output growth, healthy sinks,
sticky errors -/

theorem write_out_pfx (p : Printer) (s : Str) : p.out <+: (p.write s).out := by
  unfold Printer.write; split
  · exact List.prefix_refl _
  · split
    · simp
    · simp

theorem okp_write (p : Printer) (s : Str) (h : OkP p) : OkP (p.write s) := by
  obtain ⟨hr, hw⟩ := h
  unfold Printer.write
  rw [hw, hr]
  simp [OkP, okResp, hr]

theorem write_out_ok (p : Printer) (s : Str) (h : OkP p) :
    (p.write s).out = p.out ++ s := by
  obtain ⟨hr, hw⟩ := h
  unfold Printer.write
  rw [hw, hr]
  simp [okResp]

theorem write_wlog_ok (p : Printer) (s : Str) (h : OkP p) :
    (p.write s).wlog = p.wlog ++ [s] := by
  obtain ⟨hr, hw⟩ := h
  unfold Printer.write
  rw [hw, hr]
  simp [okResp]

theorem write_lineStart (p : Printer) (s : Str) : (p.write s).lineStart = false ∨
    (p.write s) = p := by
  unfold Printer.write; split
  · right; rfl
  · split
    · left; rfl
    · left; rfl

theorem write_sticky (p : Printer) (s : Str) (e : Nat) (h : p.werr = some e) :
    p.write s = p := by
  unfold Printer.write
  rw [h]
  rfl

theorem endl_out_pfx (p : Printer) : p.out <+: p.endl.out := by
  unfold Printer.endl; split
  · exact List.prefix_refl _
  split
  · exact List.prefix_refl _
  · simpa using write_out_pfx p ['\n']

theorem maybeIndent_out_pfx (p : Printer) : p.out <+: p.maybeIndent.out := by
  unfold Printer.maybeIndent; split
  · exact List.prefix_refl _
  · exact write_out_pfx p _

theorem wrap_out_pfx (p : Printer) (s extra : Str) :
    p.out <+: (p.wrap s extra).out := by
  unfold Printer.wrap; split
  · exact ((endl_out_pfx p).trans
      (maybeIndent_out_pfx p.endl)).trans (write_out_pfx _ _)
  · exact write_out_pfx p s

theorem okp_endl (p : Printer) (hp : OkP p) : OkP p.endl := by
  unfold Printer.endl; split
  · exact hp
  split
  · exact hp
  · have := okp_write p ['\n'] hp
    exact ⟨by simpa [OkP] using this.1, by simpa [OkP] using this.2⟩

theorem okp_maybeIndent (p : Printer) (hp : OkP p) : OkP p.maybeIndent := by
  unfold Printer.maybeIndent; split
  · exact hp
  · exact okp_write p _ hp

theorem okp_wrap (p : Printer) (s extra : Str) (hp : OkP p) :
    OkP (p.wrap s extra) := by
  unfold Printer.wrap; split
  · exact okp_write _ _ (okp_maybeIndent _ (okp_endl _ hp))
  · exact okp_write p s hp

theorem lsinv_write (p : Printer) (s : Str) (hp : LSinv p) : LSinv (p.write s) := by
  rcases write_lineStart p s with h' | h'
  · intro hq; rw [hq] at h'; cases h'
  · rw [h']; exact hp

theorem lsinv_endl (p : Printer) (hp : LSinv p) : LSinv p.endl := by
  unfold Printer.endl; split
  · exact hp
  split
  · exact hp
  · intro _; rfl

theorem lsinv_maybeIndent (p : Printer) (hp : LSinv p) : LSinv p.maybeIndent := by
  unfold Printer.maybeIndent; split
  · exact hp
  · exact lsinv_write p _ hp

theorem lsinv_wrap (p : Printer) (s extra : Str) (hp : LSinv p) :
    LSinv (p.wrap s extra) := by
  unfold Printer.wrap; split
  · exact lsinv_write _ _ (lsinv_maybeIndent _ (lsinv_endl _ hp))
  · exact lsinv_write p s hp

theorem endl_sticky (p : Printer) (e : Nat) (hp : p.werr = some e) :
    p.endl.out = p.out ∧ p.endl.wlog = p.wlog ∧ p.endl.werr = some e := by
  unfold Printer.endl; split
  · exact ⟨rfl, rfl, hp⟩
  split
  · exact ⟨rfl, rfl, hp⟩
  · rw [write_sticky p ['\n'] e hp]; exact ⟨rfl, rfl, hp⟩

theorem maybeIndent_sticky (p : Printer) (e : Nat) (hp : p.werr = some e) :
    p.maybeIndent.out = p.out ∧ p.maybeIndent.wlog = p.wlog ∧
    p.maybeIndent.werr = some e := by
  unfold Printer.maybeIndent; split
  · exact ⟨rfl, rfl, hp⟩
  · rw [write_sticky p _ e hp]; exact ⟨rfl, rfl, hp⟩

theorem wrap_sticky (p : Printer) (s extra : Str) (e : Nat)
    (hp : p.werr = some e) :
    (p.wrap s extra).out = p.out ∧ (p.wrap s extra).wlog = p.wlog ∧
    (p.wrap s extra).werr = some e := by
  have h1 := endl_sticky p e hp
  have h2 := maybeIndent_sticky p.endl e h1.2.2
  unfold Printer.wrap; split
  · rw [write_sticky _ _ e h2.2.2]
    exact ⟨h2.1.trans h1.1, h2.2.1.trans h1.2.1, h2.2.2⟩
  · rw [write_sticky p s e hp]; exact ⟨rfl, rfl, hp⟩

theorem pstep_out_pfx {p q : Printer} (h : PStep p q) : p.out <+: q.out := by
  cases h with
  | write s => exact write_out_pfx p s
  | endl => exact endl_out_pfx p
  | maybeIndent => exact maybeIndent_out_pfx p
  | wrap s extra => exact wrap_out_pfx p s extra
  | incLit => exact List.prefix_refl _
  | decLit => exact List.prefix_refl _
  | incKeep => exact List.prefix_refl _
  | decKeep => exact List.prefix_refl _
  | incLevel => exact List.prefix_refl _
  | decLevel => exact List.prefix_refl _

theorem pstep_okp {p q : Printer} (h : PStep p q) (hp : OkP p) : OkP q := by
  cases h with
  | write s => exact okp_write p s hp
  | endl => exact okp_endl p hp
  | maybeIndent => exact okp_maybeIndent p hp
  | wrap s extra => exact okp_wrap p s extra hp
  | incLit => exact hp
  | decLit => exact hp
  | incKeep => exact hp
  | decKeep => exact hp
  | incLevel => exact hp
  | decLevel => exact hp

theorem pstep_lsinv {p q : Printer} (h : PStep p q) (hp : LSinv p) : LSinv q := by
  cases h with
  | write s => exact lsinv_write p s hp
  | endl => exact lsinv_endl p hp
  | maybeIndent => exact lsinv_maybeIndent p hp
  | wrap s extra => exact lsinv_wrap p s extra hp
  | incLit => exact hp
  | decLit => exact hp
  | incKeep => exact hp
  | decKeep => exact hp
  | incLevel => exact hp
  | decLevel => exact hp

theorem pstep_sticky {p q : Printer} (e : Nat) (h : PStep p q)
    (hp : p.werr = some e) :
    q.out = p.out ∧ q.wlog = p.wlog ∧ q.werr = some e := by
  cases h with
  | write s => rw [write_sticky p s e hp]; exact ⟨rfl, rfl, hp⟩
  | endl => exact endl_sticky p e hp
  | maybeIndent => exact maybeIndent_sticky p e hp
  | wrap s extra => exact wrap_sticky p s extra e hp
  | incLit => exact ⟨rfl, rfl, hp⟩
  | decLit => exact ⟨rfl, rfl, hp⟩
  | incKeep => exact ⟨rfl, rfl, hp⟩
  | decKeep => exact ⟨rfl, rfl, hp⟩
  | incLevel => exact ⟨rfl, rfl, hp⟩
  | decLevel => exact ⟨rfl, rfl, hp⟩

theorem reach_refl (p : Printer) : Reach p p := Relation.ReflTransGen.refl

theorem reach_trans {p q r : Printer} (h₁ : Reach p q) (h₂ : Reach q r) :
    Reach p r := Relation.ReflTransGen.trans h₁ h₂

theorem reach_single {p q : Printer} (h : PStep p q) : Reach p q :=
  Relation.ReflTransGen.single h

theorem reach_out_pfx {p q : Printer} (h : Reach p q) : p.out <+: q.out := by
  induction h with
  | refl => exact List.prefix_refl _
  | tail _ hstep ih => exact ih.trans (pstep_out_pfx hstep)

theorem reach_okp {p q : Printer} (h : Reach p q) (hp : OkP p) : OkP q := by
  induction h with
  | refl => exact hp
  | tail _ hstep ih => exact pstep_okp hstep ih

theorem reach_lsinv {p q : Printer} (h : Reach p q) (hp : LSinv p) : LSinv q := by
  induction h with
  | refl => exact hp
  | tail _ hstep ih => exact pstep_lsinv hstep ih

theorem reach_sticky {p q : Printer} (e : Nat) (h : Reach p q)
    (hp : p.werr = some e) :
    q.out = p.out ∧ q.wlog = p.wlog ∧ q.werr = some e := by
  induction h with
  | refl => exact ⟨rfl, rfl, hp⟩
  | tail _ hstep ih =>
    have h' := pstep_sticky _ hstep ih.2.2
    exact ⟨h'.1.trans ih.1, h'.2.1.trans ih.2.1, h'.2.2⟩

theorem reach_ite (b : Bool) {p q : Printer} (h : Reach p q) :
    Reach p (if b then q else p) := by
  split
  · exact h
  · exact reach_refl p

theorem reach_condStep (b : Bool) (f : Printer → Printer) (p : Printer)
    (h : Reach p (f p)) : Reach p (condStep b f p) := by
  unfold condStep
  split
  · exact h
  · exact reach_refl p

theorem reach_enterKids (doNest omitClose : Bool) (p : Printer) :
    Reach p (enterKids doNest omitClose p) := by
  unfold enterKids
  split
  · refine reach_trans (reach_ite (!omitClose) (reach_single (.endl p))) ?_
    exact reach_single (.incLevel _)
  · exact reach_refl p

theorem reach_leaveKids (doNest : Bool) (p : Printer) :
    Reach p (leaveKids doNest p) := by
  unfold leaveKids
  split
  · exact reach_trans (reach_single (.decLevel p)) (reach_single (.endl _))
  · exact reach_refl p

theorem reach_writeTokens (u : Nat) (wi : Str) :
    ∀ (ts : List Str) (i : Nat) (p : Printer), Reach p (writeTokens u wi i ts p)
  | [], _, p => reach_refl p
  | t :: rest, i, p => by
    simp only [writeTokens]
    refine reach_trans ?_ (reach_writeTokens u wi rest (i + 1) _)
    split
    · exact reach_single (.write p t)
    · exact reach_single (.wrap p t wi)

theorem reach_writeWords (ss es : Bool) (ws total : Nat) :
    ∀ (l : List Str) (i : Nat) (p : Printer),
      Reach p (writeWords ss es ws total i l p)
  | [], _, p => reach_refl p
  | w :: rest, i, p => by
    simp only [writeWords]
    refine reach_trans ?_ (reach_writeWords ss es ws total rest (i + 1) _)
    split
    · exact reach_single (.write p _)
    · exact reach_single (.wrap p _ _)

theorem reach_ptext (d : Str) (prev next parent : Option NodeRef)
    (p : Printer) : Reach p (ptext d prev next parent p) := by
  unfold ptext
  split
  · exact reach_refl p
  split
  · exact reach_single (.write p d)
  dsimp only
  split
  · exact reach_single (.write p _)
  split
  · exact reach_refl p
  split
  · exact reach_trans (reach_single (.maybeIndent p)) (reach_single (.write _ _))
  · exact reach_trans (reach_single (.maybeIndent p))
      (reach_writeWords _ _ _ _ _ 0 _)

theorem reach_openTagEndl (tag : String) (tagLen : Nat)
    (prev parent : Option NodeRef) (p : Printer) :
    Reach p (openTagEndl tag tagLen prev parent p) := by
  unfold openTagEndl
  dsimp only
  split
  · exact reach_single (.endl p)
  · exact reach_refl p

theorem reach_openTagF (tag : String) (attrs : List Attr)
    (children : List Node) (prev parent : Option NodeRef) (p : Printer) :
    Reach p (openTagF tag attrs children prev parent p).2 := by
  unfold openTagF
  dsimp only
  exact reach_trans (reach_trans (reach_openTagEndl tag _ prev parent p)
    (reach_single (.maybeIndent _))) (reach_writeTokens _ _ _ 0 _)

theorem reach_pelemClose (tag : String)
    (inline literal keepSpace omitClose : Bool) (p : Printer) :
    Reach p (pelemClose tag inline literal keepSpace omitClose p).1 := by
  unfold pelemClose
  dsimp only
  refine reach_trans (reach_condStep (!omitClose)
    (fun q => (q.maybeIndent).write (closeTagStr tag)) p
    (reach_trans (reach_single (.maybeIndent p))
      (reach_single (.write p.maybeIndent (closeTagStr tag))))) ?_
  refine reach_trans (reach_condStep literal _ _ (reach_single (.decLit _))) ?_
  refine reach_trans (reach_condStep keepSpace _ _ (reach_single (.decKeep _))) ?_
  exact reach_condStep (!inline) _ _ (reach_single (.endl _))

theorem walk_reach : ∀ fuel : Nat,
    (∀ (n : Node) (prev parent : Option NodeRef) (p : Printer),
      Reach p (pelemF fuel n prev parent p).1) ∧
    (∀ (ptag : String) (lc : Bool) (prevRef : Option NodeRef)
      (cs : List Node) (p : Printer),
      Reach p (pkidsF fuel ptag lc prevRef cs p).1) := by
  intro fuel
  induction fuel with
  | zero =>
    constructor
    · intro n prev parent p
      exact reach_refl p
    · intro ptag lc prevRef cs p
      cases cs with
      | nil => exact reach_refl p
      | cons c rest => exact reach_refl p
  | succ fuel ih =>
    constructor
    · intro n prev parent p
      cases n with
      | document cs => exact reach_refl p
      | doctype d => exact reach_refl p
      | text d => exact reach_refl p
      | comment d => exact reach_refl p
      | element tag attrs children =>
        simp only [pelemF]
        have h0 : Reach p (openTagF tag attrs children prev parent p).2 :=
          reach_openTagF tag attrs children prev parent p
        generalize (openTagF tag attrs children prev parent p).2 = q at h0
        refine reach_trans h0 ?_
        refine reach_trans (reach_condStep (literalTags.contains tag) incLit1 q
          (reach_single (.incLit q))) ?_
        generalize condStep (literalTags.contains tag) incLit1 q = q2
        refine reach_trans (reach_condStep (keepSpaceTags.contains tag) incKeep1
          q2 (reach_single (.incKeep q2))) ?_
        generalize condStep (keepSpaceTags.contains tag) incKeep1 q2 = q3
        split
        · split
          · exact reach_refl q3
          · exact reach_refl q3
        · split
          · exact reach_pelemClose _ _ _ _ _ _
          · rename_i c rest
            refine reach_trans (reach_enterKids
              (!(inlineTags.contains tag ||
                (openTagF tag attrs (c :: rest) prev parent p).1) ||
                listTags.contains tag) (omitCloseTags.contains tag) q3) ?_
            generalize enterKids (!(inlineTags.contains tag ||
                (openTagF tag attrs (c :: rest) prev parent p).1) ||
                listTags.contains tag) (omitCloseTags.contains tag) q3 = q4
            refine reach_trans (ih.2 tag (listTags.contains tag) none
              (c :: rest) q4) ?_
            generalize pkidsF fuel tag (listTags.contains tag) none
              (c :: rest) q4 = r
            cases hr : r.2 with
            | some e => exact reach_refl r.1
            | none =>
              dsimp only
              exact reach_trans (reach_leaveKids
                (!(inlineTags.contains tag ||
                  (openTagF tag attrs (c :: rest) prev parent p).1) ||
                  listTags.contains tag) r.1)
                (reach_pelemClose _ _ _ _ _ _)
    · intro ptag lc prevRef cs p
      cases cs with
      | nil => exact reach_refl p
      | cons c rest =>
        cases c with
        | element t a cs2 =>
          simp only [pkidsF]
          have h0 : Reach p (pelemF fuel (.element t a cs2) prevRef
            (some (.elem ptag)) p).1 := ih.1 _ _ _ _
          generalize pelemF fuel (.element t a cs2) prevRef
            (some (.elem ptag)) p = r at h0
          cases hr : r.2 with
          | some e => exact h0
          | none =>
            dsimp only
            refine reach_trans h0 ?_
            refine reach_trans (reach_condStep lc Printer.endl r.1
              (reach_single (.endl r.1))) ?_
            exact ih.2 ptag lc _ rest _
        | text d =>
          simp only [pkidsF]
          exact reach_trans (reach_ptext d prevRef _ _ p) (ih.2 ptag lc _ rest _)
        | comment d =>
          simp only [pkidsF]
          exact ih.2 ptag lc _ rest _
        | document cs2 =>
          simp only [pkidsF]
          exact reach_refl p
        | doctype d =>
          simp only [pkidsF]
          exact reach_refl p

theorem reach_pdocKids (fuel : Nat) :
    ∀ (cs : List Node) (prevRef : Option NodeRef) (p : Printer),
      Reach p (pdocKids fuel prevRef cs p).1
  | [], _, p => reach_refl p
  | c :: rest, prevRef, p => by
    cases c with
    | doctype d =>
      simp only [pdocKids]
      exact reach_trans (reach_trans (reach_single (.write p _))
        (reach_single (.endl _))) (reach_pdocKids fuel rest _ _)
    | element t a cs' =>
      simp only [pdocKids]
      have h0 : Reach p (pelemF fuel (.element t a cs') prevRef
        (some .other) p).1 := (walk_reach fuel).1 _ _ _ _
      generalize pelemF fuel (.element t a cs') prevRef (some .other) p = r at h0
      cases hr : r.2 with
      | some e => exact h0
      | none => exact reach_trans h0 (reach_pdocKids fuel rest _ _)
    | document cs' => exact reach_refl p
    | text d => exact reach_refl p
    | comment d => exact reach_refl p

theorem reach_pdocF (fuel : Nat) (n : Node) (p : Printer) :
    Reach p (pdocF fuel n p).1 := by
  cases n with
  | document cs => exact reach_pdocKids fuel cs none p
  | doctype d => exact reach_refl p
  | element t a cs => exact reach_refl p
  | text d => exact reach_refl p
  | comment d => exact reach_refl p

/-! ### The walk restores indentation level and depth counters -/

theorem writeTokens_depths : ∀ (ts : List Str) (u : Nat) (wi : Str) (i : Nat)
    (p : Printer),
    (writeTokens u wi i ts p).level = p.level ∧
    (writeTokens u wi i ts p).literalDepth = p.literalDepth ∧
    (writeTokens u wi i ts p).keepSpaceDepth = p.keepSpaceDepth
  | [], _, _, _, _ => ⟨rfl, rfl, rfl⟩
  | t :: rest, u, wi, i, p => by
    simp only [writeTokens]
    split
    · have ih := writeTokens_depths rest u wi (i + 1) (p.write t)
      simpa using ih
    · have ih := writeTokens_depths rest u wi (i + 1) (p.wrap t wi)
      simpa using ih

theorem writeWords_depths : ∀ (l : List Str) (ss es : Bool) (ws total i : Nat)
    (p : Printer),
    (writeWords ss es ws total i l p).level = p.level ∧
    (writeWords ss es ws total i l p).literalDepth = p.literalDepth ∧
    (writeWords ss es ws total i l p).keepSpaceDepth = p.keepSpaceDepth
  | [], _, _, _, _, _, _ => ⟨rfl, rfl, rfl⟩
  | w :: rest, ss, es, ws, total, i, p => by
    simp only [writeWords]
    refine ⟨?_, ?_, ?_⟩
    · rw [(writeWords_depths rest ss es ws total (i + 1) _).1]
      split <;> simp
    · rw [(writeWords_depths rest ss es ws total (i + 1) _).2.1]
      split <;> simp
    · rw [(writeWords_depths rest ss es ws total (i + 1) _).2.2]
      split <;> simp

theorem ptext_depths (d : Str) (prev next parent : Option NodeRef)
    (p : Printer) :
    (ptext d prev next parent p).level = p.level ∧
    (ptext d prev next parent p).literalDepth = p.literalDepth ∧
    (ptext d prev next parent p).keepSpaceDepth = p.keepSpaceDepth := by
  unfold ptext
  split
  · exact ⟨rfl, rfl, rfl⟩
  split
  · simp
  dsimp only
  split
  · simp
  split
  · exact ⟨rfl, rfl, rfl⟩
  split
  · simp
  · refine ⟨?_, ?_, ?_⟩
    · rw [(writeWords_depths _ _ _ _ _ _ _).1]; simp
    · rw [(writeWords_depths _ _ _ _ _ _ _).2.1]; simp
    · rw [(writeWords_depths _ _ _ _ _ _ _).2.2]; simp

theorem openTagEndl_depths (tag : String) (tagLen : Nat)
    (prev parent : Option NodeRef) (p : Printer) :
    (openTagEndl tag tagLen prev parent p).level = p.level ∧
    (openTagEndl tag tagLen prev parent p).literalDepth = p.literalDepth ∧
    (openTagEndl tag tagLen prev parent p).keepSpaceDepth = p.keepSpaceDepth := by
  unfold openTagEndl
  dsimp only
  split
  · simp
  · exact ⟨rfl, rfl, rfl⟩

theorem openTagF_depths (tag : String) (attrs : List Attr)
    (children : List Node) (prev parent : Option NodeRef) (p : Printer) :
    (openTagF tag attrs children prev parent p).2.level = p.level ∧
    (openTagF tag attrs children prev parent p).2.literalDepth = p.literalDepth ∧
    (openTagF tag attrs children prev parent p).2.keepSpaceDepth =
      p.keepSpaceDepth := by
  unfold openTagF
  dsimp only
  have h0 := openTagEndl_depths tag (blen (openTagTokens tag attrs).flatten)
    prev parent p
  refine ⟨?_, ?_, ?_⟩
  · rw [(writeTokens_depths _ _ _ _ _).1]
    simpa using h0.1
  · rw [(writeTokens_depths _ _ _ _ _).2.1]
    simpa using h0.2.1
  · rw [(writeTokens_depths _ _ _ _ _).2.2]
    simpa using h0.2.2

theorem pelemClose_fields (tag : String)
    (inline literal keepSpace omitClose : Bool) (p : Printer) :
    (pelemClose tag inline literal keepSpace omitClose p).1.level = p.level ∧
    (pelemClose tag inline literal keepSpace omitClose p).1.literalDepth =
      p.literalDepth - (if literal then 1 else 0) ∧
    (pelemClose tag inline literal keepSpace omitClose p).1.keepSpaceDepth =
      p.keepSpaceDepth - (if keepSpace then 1 else 0) ∧
    (pelemClose tag inline literal keepSpace omitClose p).2 = none := by
  unfold pelemClose condStep
  dsimp only
  split <;> split <;> split <;> split <;> simp [decLit1, decKeep1]

@[simp] theorem condStep_incLit_level (b : Bool) (q : Printer) :
    (condStep b incLit1 q).level = q.level := by
  unfold condStep; split <;> rfl

@[simp] theorem condStep_incLit_literalDepth (b : Bool) (q : Printer) :
    (condStep b incLit1 q).literalDepth =
      q.literalDepth + (if b then 1 else 0) := by
  unfold condStep; split <;> simp [incLit1]

@[simp] theorem condStep_incLit_keepSpaceDepth (b : Bool) (q : Printer) :
    (condStep b incLit1 q).keepSpaceDepth = q.keepSpaceDepth := by
  unfold condStep; split <;> rfl

@[simp] theorem condStep_incKeep_level (b : Bool) (q : Printer) :
    (condStep b incKeep1 q).level = q.level := by
  unfold condStep; split <;> rfl

@[simp] theorem condStep_incKeep_literalDepth (b : Bool) (q : Printer) :
    (condStep b incKeep1 q).literalDepth = q.literalDepth := by
  unfold condStep; split <;> rfl

@[simp] theorem condStep_incKeep_keepSpaceDepth (b : Bool) (q : Printer) :
    (condStep b incKeep1 q).keepSpaceDepth =
      q.keepSpaceDepth + (if b then 1 else 0) := by
  unfold condStep; split <;> simp [incKeep1]

@[simp] theorem condStep_endl_level (b : Bool) (q : Printer) :
    (condStep b Printer.endl q).level = q.level := by
  unfold condStep; split <;> simp

@[simp] theorem condStep_endl_literalDepth (b : Bool) (q : Printer) :
    (condStep b Printer.endl q).literalDepth = q.literalDepth := by
  unfold condStep; split <;> simp

@[simp] theorem condStep_endl_keepSpaceDepth (b : Bool) (q : Printer) :
    (condStep b Printer.endl q).keepSpaceDepth = q.keepSpaceDepth := by
  unfold condStep; split <;> simp

@[simp] theorem enterKids_level (b c : Bool) (q : Printer) :
    (enterKids b c q).level = q.level + (if b then 1 else 0) := by
  unfold enterKids
  split <;> · first
    | (split <;> simp [incLevel1])
    | simp

@[simp] theorem enterKids_literalDepth (b c : Bool) (q : Printer) :
    (enterKids b c q).literalDepth = q.literalDepth := by
  unfold enterKids
  split <;> · first
    | (split <;> simp [incLevel1])
    | simp

@[simp] theorem enterKids_keepSpaceDepth (b c : Bool) (q : Printer) :
    (enterKids b c q).keepSpaceDepth = q.keepSpaceDepth := by
  unfold enterKids
  split <;> · first
    | (split <;> simp [incLevel1])
    | simp

@[simp] theorem leaveKids_level (b : Bool) (r : Printer) :
    (leaveKids b r).level = r.level - (if b then 1 else 0) := by
  unfold leaveKids; split <;> simp [decLevel1]

@[simp] theorem leaveKids_literalDepth (b : Bool) (r : Printer) :
    (leaveKids b r).literalDepth = r.literalDepth := by
  unfold leaveKids; split <;> simp [decLevel1]

@[simp] theorem leaveKids_keepSpaceDepth (b : Bool) (r : Printer) :
    (leaveKids b r).keepSpaceDepth = r.keepSpaceDepth := by
  unfold leaveKids; split <;> simp [decLevel1]

@[simp] theorem openTagF_level (tag : String) (attrs : List Attr)
    (children : List Node) (prev parent : Option NodeRef) (p : Printer) :
    (openTagF tag attrs children prev parent p).2.level = p.level :=
  (openTagF_depths tag attrs children prev parent p).1

@[simp] theorem openTagF_literalDepth (tag : String) (attrs : List Attr)
    (children : List Node) (prev parent : Option NodeRef) (p : Printer) :
    (openTagF tag attrs children prev parent p).2.literalDepth =
      p.literalDepth :=
  (openTagF_depths tag attrs children prev parent p).2.1

@[simp] theorem openTagF_keepSpaceDepth (tag : String) (attrs : List Attr)
    (children : List Node) (prev parent : Option NodeRef) (p : Printer) :
    (openTagF tag attrs children prev parent p).2.keepSpaceDepth =
      p.keepSpaceDepth :=
  (openTagF_depths tag attrs children prev parent p).2.2

@[simp] theorem ptext_level (d : Str) (prev next parent : Option NodeRef)
    (p : Printer) : (ptext d prev next parent p).level = p.level :=
  (ptext_depths d prev next parent p).1

@[simp] theorem ptext_literalDepth (d : Str) (prev next parent : Option NodeRef)
    (p : Printer) : (ptext d prev next parent p).literalDepth = p.literalDepth :=
  (ptext_depths d prev next parent p).2.1

@[simp] theorem ptext_keepSpaceDepth (d : Str)
    (prev next parent : Option NodeRef) (p : Printer) :
    (ptext d prev next parent p).keepSpaceDepth = p.keepSpaceDepth :=
  (ptext_depths d prev next parent p).2.2

@[simp] theorem pelemClose_level (tag : String)
    (inline literal keepSpace omitClose : Bool) (p : Printer) :
    (pelemClose tag inline literal keepSpace omitClose p).1.level = p.level :=
  (pelemClose_fields tag inline literal keepSpace omitClose p).1

@[simp] theorem pelemClose_literalDepth (tag : String)
    (inline literal keepSpace omitClose : Bool) (p : Printer) :
    (pelemClose tag inline literal keepSpace omitClose p).1.literalDepth =
      p.literalDepth - (if literal then 1 else 0) :=
  (pelemClose_fields tag inline literal keepSpace omitClose p).2.1

@[simp] theorem pelemClose_keepSpaceDepth (tag : String)
    (inline literal keepSpace omitClose : Bool) (p : Printer) :
    (pelemClose tag inline literal keepSpace omitClose p).1.keepSpaceDepth =
      p.keepSpaceDepth - (if keepSpace then 1 else 0) :=
  (pelemClose_fields tag inline literal keepSpace omitClose p).2.2.1

@[simp] theorem pelemClose_err (tag : String)
    (inline literal keepSpace omitClose : Bool) (p : Printer) :
    (pelemClose tag inline literal keepSpace omitClose p).2 = none :=
  (pelemClose_fields tag inline literal keepSpace omitClose p).2.2.2

/-- Joint fuel induction: on a successful return, `element` (and the
child loop) restore the indentation level and the literal/keep-space
depth counters exactly; on any return the two depth counters and the
level never drop below their entry values. -/
theorem walk_depths : ∀ fuel : Nat,
    (∀ (n : Node) (prev parent : Option NodeRef) (p : Printer),
      ((pelemF fuel n prev parent p).2 = none →
        (pelemF fuel n prev parent p).1.level = p.level ∧
        (pelemF fuel n prev parent p).1.literalDepth = p.literalDepth ∧
        (pelemF fuel n prev parent p).1.keepSpaceDepth = p.keepSpaceDepth) ∧
      p.literalDepth ≤ (pelemF fuel n prev parent p).1.literalDepth ∧
      p.keepSpaceDepth ≤ (pelemF fuel n prev parent p).1.keepSpaceDepth ∧
      p.level ≤ (pelemF fuel n prev parent p).1.level) ∧
    (∀ (ptag : String) (lc : Bool) (prevRef : Option NodeRef)
      (cs : List Node) (p : Printer),
      ((pkidsF fuel ptag lc prevRef cs p).2 = none →
        (pkidsF fuel ptag lc prevRef cs p).1.level = p.level ∧
        (pkidsF fuel ptag lc prevRef cs p).1.literalDepth = p.literalDepth ∧
        (pkidsF fuel ptag lc prevRef cs p).1.keepSpaceDepth =
          p.keepSpaceDepth) ∧
      p.literalDepth ≤ (pkidsF fuel ptag lc prevRef cs p).1.literalDepth ∧
      p.keepSpaceDepth ≤ (pkidsF fuel ptag lc prevRef cs p).1.keepSpaceDepth ∧
      p.level ≤ (pkidsF fuel ptag lc prevRef cs p).1.level) := by
  intro fuel
  induction fuel with
  | zero =>
    constructor
    · intro n prev parent p
      exact ⟨fun h => (by cases h), le_refl _, le_refl _, le_refl _⟩
    · intro ptag lc prevRef cs p
      cases cs with
      | nil => exact ⟨fun _ => ⟨rfl, rfl, rfl⟩, le_refl _, le_refl _, le_refl _⟩
      | cons c rest =>
        exact ⟨fun h => (by cases h), le_refl _, le_refl _, le_refl _⟩
  | succ fuel ih =>
    constructor
    · intro n prev parent p
      cases n with
      | document cs => exact ⟨fun h => (by cases h), le_refl _, le_refl _, le_refl _⟩
      | doctype d => exact ⟨fun h => (by cases h), le_refl _, le_refl _, le_refl _⟩
      | text d => exact ⟨fun h => (by cases h), le_refl _, le_refl _, le_refl _⟩
      | comment d => exact ⟨fun h => (by cases h), le_refl _, le_refl _, le_refl _⟩
      | element tag attrs children =>
        simp only [pelemF]
        split
        · -- void element
          split
          · -- void and literal/keep-space: panic
            have h1 : (0:Int) ≤ if literalTags.contains tag then 1 else 0 := by
              split <;> norm_num
            have h2 : (0:Int) ≤
                if keepSpaceTags.contains tag then 1 else 0 := by
              split <;> norm_num
            refine ⟨fun h => (by cases h), ?_, ?_, ?_⟩
            · simp only [condStep_incKeep_literalDepth,
                condStep_incLit_literalDepth, openTagF_literalDepth]
              exact le_add_of_nonneg_right h1
            · simp only [condStep_incKeep_keepSpaceDepth,
                condStep_incLit_keepSpaceDepth, openTagF_keepSpaceDepth]
              exact le_add_of_nonneg_right h2
            · simp only [condStep_incKeep_level, condStep_incLit_level,
                openTagF_level]
              exact le_refl _
          · -- plain void: success
            rename_i hnl
            have hnl2 : literalTags.contains tag = false ∧
                keepSpaceTags.contains tag = false := by
              cases hl : literalTags.contains tag <;>
                cases hk : keepSpaceTags.contains tag
              · exact ⟨rfl, rfl⟩
              · rw [hl, hk] at hnl; exact absurd rfl hnl
              · rw [hl, hk] at hnl; exact absurd rfl hnl
              · rw [hl, hk] at hnl; exact absurd rfl hnl
            refine ⟨fun _ => ⟨?_, ?_, ?_⟩, ?_, ?_, ?_⟩
            · simp only [condStep_incKeep_level, condStep_incLit_level,
                openTagF_level]
            · simp only [condStep_incKeep_literalDepth,
                condStep_incLit_literalDepth, openTagF_literalDepth, hnl2.1]
              simp
            · simp only [condStep_incKeep_keepSpaceDepth,
                condStep_incLit_keepSpaceDepth, openTagF_keepSpaceDepth, hnl2.2]
              simp
            · simp only [condStep_incKeep_literalDepth,
                condStep_incLit_literalDepth, openTagF_literalDepth, hnl2.1]
              simp
            · simp only [condStep_incKeep_keepSpaceDepth,
                condStep_incLit_keepSpaceDepth, openTagF_keepSpaceDepth, hnl2.2]
              simp
            · simp only [condStep_incKeep_level, condStep_incLit_level,
                openTagF_level]
              exact le_refl _
        · -- non-void
          split
          · -- no children
            refine ⟨fun _ => ⟨?_, ?_, ?_⟩, ?_, ?_, ?_⟩ <;> simp
          · -- children
            rename_i c rest
            generalize hq :
              condStep (keepSpaceTags.contains tag) incKeep1
                (condStep (literalTags.contains tag) incLit1
                  (openTagF tag attrs (c :: rest) prev parent p).2) = q3
            have hq3lv : q3.level = p.level := by rw [← hq]; simp
            have hq3ld : q3.literalDepth =
                p.literalDepth + (if literalTags.contains tag then 1 else 0) := by
              rw [← hq]; simp
            have hq3kd : q3.keepSpaceDepth =
                p.keepSpaceDepth +
                  (if keepSpaceTags.contains tag then 1 else 0) := by
              rw [← hq]; simp
            generalize hE : enterKids (!(inlineTags.contains tag ||
                (openTagF tag attrs (c :: rest) prev parent p).1) ||
                listTags.contains tag) (omitCloseTags.contains tag) q3 = E
            have hElv : E.level = q3.level +
                (if (!(inlineTags.contains tag ||
                  (openTagF tag attrs (c :: rest) prev parent p).1) ||
                  listTags.contains tag) then 1 else 0) := by
              rw [← hE]; simp
            have hEld : E.literalDepth = q3.literalDepth := by rw [← hE]; simp
            have hEkd : E.keepSpaceDepth = q3.keepSpaceDepth := by
              rw [← hE]; simp
            have ihk := ih.2 tag (listTags.contains tag) none (c :: rest) E
            generalize hr : pkidsF fuel tag (listTags.contains tag) none
              (c :: rest) E = r at ihk
            cases hr2 : r.2 with
            | some e =>
              simp only [hr2]
              refine ⟨fun h => (by cases h), ?_, ?_, ?_⟩
              · refine le_trans ?_ ihk.2.1
                rw [hEld, hq3ld]
                have : (0:Int) ≤ if literalTags.contains tag then 1 else 0 := by
                  split <;> norm_num
                omega
              · refine le_trans ?_ ihk.2.2.1
                rw [hEkd, hq3kd]
                have : (0:Int) ≤
                    if keepSpaceTags.contains tag then 1 else 0 := by
                  split <;> norm_num
                omega
              · refine le_trans ?_ ihk.2.2.2
                rw [hElv, hq3lv]
                have : (0:Int) ≤ if (!(inlineTags.contains tag ||
                    (openTagF tag attrs (c :: rest) prev parent p).1) ||
                    listTags.contains tag) then 1 else 0 := by
                  split <;> norm_num
                omega
            | none =>
              simp only [hr2]
              obtain ⟨hre1, hre2, hre3⟩ := ihk.1 hr2
              refine ⟨fun _ => ⟨?_, ?_, ?_⟩, ?_, ?_, ?_⟩
              · simp [hre1, hElv, hq3lv]
              · simp [hre2, hEld, hq3ld]
              · simp [hre3, hEkd, hq3kd]
              · simp [hre2, hEld, hq3ld]
              · simp [hre3, hEkd, hq3kd]
              · simp [hre1, hElv, hq3lv]
    · intro ptag lc prevRef cs p
      cases cs with
      | nil => exact ⟨fun _ => ⟨rfl, rfl, rfl⟩, le_refl _, le_refl _, le_refl _⟩
      | cons c rest =>
        cases c with
        | element t a cs2 =>
          simp only [pkidsF]
          have ihe := ih.1 (.element t a cs2) prevRef (some (.elem ptag)) p
          generalize hr : pelemF fuel (.element t a cs2) prevRef
            (some (.elem ptag)) p = r at ihe
          cases hr2 : r.2 with
          | some e =>
            simp only [hr2]
            exact ⟨fun h => (by cases h), ihe.2.1, ihe.2.2.1, ihe.2.2.2⟩
          | none =>
            simp only [hr2]
            obtain ⟨he1, he2, he3⟩ := ihe.1 hr2
            have ihk := ih.2 ptag lc (some (.elem t)) rest
              (condStep lc Printer.endl r.1)
            refine ⟨fun h => ?_, ?_, ?_, ?_⟩
            · obtain ⟨hk1, hk2, hk3⟩ := ihk.1 h
              refine ⟨?_, ?_, ?_⟩
              · rw [hk1]; simp [he1]
              · rw [hk2]; simp [he2]
              · rw [hk3]; simp [he3]
            · refine le_trans ?_ ihk.2.1
              simp [he2]
            · refine le_trans ?_ ihk.2.2.1
              simp [he3]
            · refine le_trans ?_ ihk.2.2.2
              simp [he1]
        | text d =>
          simp only [pkidsF]
          have ihk := ih.2 ptag lc (some (.text d)) rest
            (ptext d prevRef (rest.head?.map nodeRef) (some (.elem ptag)) p)
          refine ⟨fun h => ?_, ?_, ?_, ?_⟩
          · obtain ⟨hk1, hk2, hk3⟩ := ihk.1 h
            exact ⟨by rw [hk1]; simp, by rw [hk2]; simp, by rw [hk3]; simp⟩
          · exact le_trans (by simp) ihk.2.1
          · exact le_trans (by simp) ihk.2.2.1
          · exact le_trans (by simp) ihk.2.2.2
        | comment d =>
          simp only [pkidsF]
          exact ih.2 ptag lc (some .other) rest p
        | document cs2 =>
          simp only [pkidsF]
          exact ⟨fun h => (by cases h), le_refl _, le_refl _, le_refl _⟩
        | doctype d =>
          simp only [pkidsF]
          exact ⟨fun h => (by cases h), le_refl _, le_refl _, le_refl _⟩

/-! ### C3: the collapse step matches its specification -/

theorem sq_head : ∀ (x : Char) (l : Str), ∃ t, squeezeSpaces (x :: l) = x :: t
  | x, [] => ⟨[], rfl⟩
  | x, d :: t => by
    simp only [squeezeSpaces]
    split
    · rename_i h
      simp only [Bool.and_eq_true, decide_eq_true_eq] at h
      obtain ⟨t2, ht2⟩ := sq_head d t
      refine ⟨t2, ?_⟩
      rw [ht2, h.2, ← h.1]
    · exact ⟨squeezeSpaces (d :: t), rfl⟩

theorem dropOne_cons_nonspace (c : Char) (l : Str) (hc : ¬ c = ' ') :
    dropOneLeadingSpace (c :: l) = c :: l := by
  unfold dropOneLeadingSpace
  split
  · rename_i heq
    cases heq
    exact absurd rfl hc
  · rfl

theorem sq_cons_space (l : Str) :
    squeezeSpaces (' ' :: l) = ' ' :: dropOneLeadingSpace (squeezeSpaces l) := by
  cases l with
  | nil => rfl
  | cons d t =>
    simp only [squeezeSpaces]
    split
    · rename_i h
      simp only [Bool.and_eq_true, decide_eq_true_eq] at h
      obtain ⟨t2, ht2⟩ := sq_head d t
      rw [ht2, h.2]
      rfl
    · rename_i h
      have hd : ¬ d = ' ' := by
        intro hdd
        exact h (by simp [hdd])
      obtain ⟨t2, ht2⟩ := sq_head d t
      rw [ht2, dropOne_cons_nonspace d t2 hd]

theorem sq_cons_nonspace (c : Char) (l : Str) (hc : ¬ c = ' ') :
    squeezeSpaces (c :: l) = c :: squeezeSpaces l := by
  cases l with
  | nil => rfl
  | cons d t =>
    simp only [squeezeSpaces]
    split
    · rename_i h
      simp only [Bool.and_eq_true, decide_eq_true_eq] at h
      exact absurd h.1 hc
    · rfl

theorem collapseAux_eq_squeeze : ∀ l : Str,
    collapseWSAux false l = squeezeSpaces (wsToSpace l) ∧
    collapseWSAux true l =
      dropOneLeadingSpace (squeezeSpaces (wsToSpace l))
  | [] => ⟨rfl, rfl⟩
  | c :: rest => by
    obtain ⟨ihf, iht⟩ := collapseAux_eq_squeeze rest
    by_cases hws : isWS c = true
    · have hmap : wsToSpace (c :: rest) = ' ' :: wsToSpace rest := by
        simp [wsToSpace, hws]
      have hf : collapseWSAux false (c :: rest) =
          ' ' :: collapseWSAux true rest := by
        simp [collapseWSAux, hws]
      have ht : collapseWSAux true (c :: rest) = collapseWSAux true rest := by
        simp [collapseWSAux, hws]
      rw [hmap]
      constructor
      · rw [hf, sq_cons_space, iht]
      · rw [ht, sq_cons_space, iht]
        rfl
    · have hws2 : isWS c = false := by simpa using hws
      have hcs : ¬ c = ' ' := by
        intro h
        rw [h] at hws2
        cases hws2
      have hmap : wsToSpace (c :: rest) = c :: wsToSpace rest := by
        simp [wsToSpace, hws2]
      have hf : collapseWSAux false (c :: rest) =
          c :: collapseWSAux false rest := by
        simp [collapseWSAux, hws2]
      have ht : collapseWSAux true (c :: rest) =
          c :: collapseWSAux false rest := by
        simp [collapseWSAux, hws2]
      rw [hmap]
      constructor
      · rw [hf, sq_cons_nonspace c _ hcs, ihf]
      · rw [ht, sq_cons_nonspace c _ hcs, ihf,
          dropOne_cons_nonspace _ _ hcs]

theorem collapseWS_eq_spec (s : Str) : collapseWS s = collapseRunsSpec s :=
  (collapseAux_eq_squeeze s).1

/-- No two adjacent spaces: the invariant of squeezed strings. -/
theorem sq_noDbl : ∀ l : Str,
    List.Chain' (fun a b => ¬(a = ' ' ∧ b = ' ')) (squeezeSpaces l)
  | [] => List.chain'_nil
  | [c] => List.chain'_singleton c
  | c :: d :: rest => by
    simp only [squeezeSpaces]
    split
    · exact sq_noDbl (d :: rest)
    · rename_i h
      simp only [Bool.and_eq_true, decide_eq_true_eq] at h
      obtain ⟨t2, ht2⟩ := sq_head d rest
      have ih := sq_noDbl (d :: rest)
      rw [ht2] at ih ⊢
      exact List.chain'_cons.mpr ⟨fun hx => h ⟨hx.1, hx.2⟩, ih⟩

theorem trimLeft_eq_dropOne (l : Str)
    (h : List.Chain' (fun a b => ¬(a = ' ' ∧ b = ' ')) l) :
    trimLeftSpaces l = dropOneLeadingSpace l := by
  cases l with
  | nil => rfl
  | cons c rest =>
    by_cases hc : c = ' '
    · subst hc
      cases rest with
      | nil => rfl
      | cons d t =>
        have hd : ¬ d = ' ' := by
          intro hd
          exact (List.chain'_cons.mp h).1 ⟨rfl, hd⟩
        unfold trimLeftSpaces dropOneLeadingSpace
        simp only [List.dropWhile_cons, decide_True, decide_eq_true_eq]
        rw [if_pos trivial, if_neg hd]
    · unfold trimLeftSpaces dropOneLeadingSpace
      rw [List.dropWhile_cons, if_neg (by simpa using hc)]
      split
      · rename_i heq
        cases heq
        exact absurd rfl hc
      · rfl

theorem noDbl_reverse (l : Str)
    (h : List.Chain' (fun a b => ¬(a = ' ' ∧ b = ' ')) l) :
    List.Chain' (fun a b => ¬(a = ' ' ∧ b = ' ')) l.reverse := by
  rw [List.chain'_reverse]
  exact h.imp (fun a b hab hx => hab ⟨hx.2, hx.1⟩)

theorem trimRight_eq_dropOne (l : Str)
    (h : List.Chain' (fun a b => ¬(a = ' ' ∧ b = ' ')) l) :
    trimRightSpaces l = dropOneTrailingSpace l := by
  unfold trimRightSpaces dropOneTrailingSpace
  rw [trimLeft_eq_dropOne l.reverse (noDbl_reverse l h)]

theorem noDbl_dropOne (l : Str)
    (h : List.Chain' (fun a b => ¬(a = ' ' ∧ b = ' ')) l) :
    List.Chain' (fun a b => ¬(a = ' ' ∧ b = ' '))
      (dropOneLeadingSpace l) := by
  unfold dropOneLeadingSpace
  split
  · exact h.tail
  · exact h

/-- C3 core equivalence: the code's `collapseText` equals the spec-side
collapse (maximal-run collapse, then conditional one-space trims). -/
theorem collapseText_eq_spec (s : Str) (prev next parent : Option NodeRef) :
    collapseText s prev next parent = collapseTextSpec s prev next parent := by
  unfold collapseText collapseTextSpec
  rw [collapseWS_eq_spec]
  have h0 : List.Chain' (fun a b => ¬(a = ' ' ∧ b = ' '))
      (collapseRunsSpec s) := sq_noDbl (wsToSpace s)
  have e1 := trimLeft_eq_dropOne _ h0
  have e2 := trimRight_eq_dropOne _ h0
  have e3 := trimRight_eq_dropOne _ (noDbl_dropOne _ h0)
  cases hpar : refHas inlineTags parent <;>
    cases hprev : refHas inlineTags prev <;>
      cases hnext : refHas inlineTags next <;>
        simp [hpar, hprev, hnext, e1, e2, e3]

/-! ### C2: literal fidelity -/

theorem mem_of_contains_literal (t : String)
    (h : literalTags.contains t = true) :
    t = "noscript" ∨ t = "script" ∨ t = "style" := by
  simp only [literalTags, List.contains_cons, List.contains_nil,
    Bool.or_eq_true, beq_iff_eq, Bool.or_false] at h
  tauto

theorem literal_tag_facts (t : String) (h : literalTags.contains t = true) :
    voidTags.contains t = false ∧ listTags.contains t = false ∧
    keepSpaceTags.contains t = false ∧ inlineTags.contains t = false ∧
    omitCloseTags.contains t = false := by
  rcases mem_of_contains_literal t h with rfl | rfl | rfl <;> decide

theorem mem_of_contains_void (t : String) (h : voidTags.contains t = true) :
    t = "area" ∨ t = "base" ∨ t = "br" ∨ t = "col" ∨ t = "embed" ∨
    t = "hr" ∨ t = "img" ∨ t = "input" ∨ t = "link" ∨ t = "meta" ∨
    t = "param" ∨ t = "source" ∨ t = "track" ∨ t = "wbr" := by
  simp only [voidTags, List.contains_cons, List.contains_nil,
    Bool.or_eq_true, beq_iff_eq, Bool.or_false] at h
  tauto

theorem void_tag_facts (t : String) (h : voidTags.contains t = true) :
    literalTags.contains t = false ∧ keepSpaceTags.contains t = false := by
  rcases mem_of_contains_void t h with
    rfl | rfl | rfl | rfl | rfl | rfl | rfl | rfl | rfl | rfl | rfl | rfl |
    rfl | rfl <;> decide

theorem length_le_weightList : ∀ cs : List Node, cs.length ≤ weightList cs
  | [] => le_refl 0
  | c :: rest => by
    simp only [List.length_cons, weightList]
    have := length_le_weightList rest
    omega

theorem ptext_literal_out (d : Str) (prev next parent : Option NodeRef)
    (p : Printer) (hlit : p.inLiteral = true) (hok : OkP p) :
    (ptext d prev next parent p).out = p.out ++ d := by
  unfold ptext
  split
  · rename_i h
    simp only [List.length_eq_zero] at h
    rw [h]
    simp
  · exact write_out_ok p d hok

theorem pkids_literal_out : ∀ (cs : List Node) (fuel : Nat) (ptag : String)
    (lc : Bool) (prevRef : Option NodeRef) (p : Printer),
    allText cs = true → cs.length ≤ fuel → p.inLiteral = true → OkP p →
    (pkidsF fuel ptag lc prevRef cs p).2 = none ∧
    (pkidsF fuel ptag lc prevRef cs p).1.out =
      p.out ++ (cs.map textData).flatten
  | [], fuel, ptag, lc, prevRef, p, _, _, _, _ => by
    cases fuel <;> exact ⟨rfl, by simp [pkidsF]⟩
  | c :: rest, fuel, ptag, lc, prevRef, p, hat, hlen, hlit, hok => by
    cases c with
    | text d =>
      cases fuel with
      | zero => simp at hlen
      | succ f =>
        simp only [pkidsF]
        have hp2lit : (ptext d prevRef (rest.head?.map nodeRef)
            (some (.elem ptag)) p).inLiteral = true := by
          simp [Printer.inLiteral] at hlit ⊢
          simpa using hlit
        have hp2ok : OkP (ptext d prevRef (rest.head?.map nodeRef)
            (some (.elem ptag)) p) :=
          reach_okp (reach_ptext d _ _ _ p) hok
        have ih := pkids_literal_out rest f ptag lc (some (.text d))
          (ptext d prevRef (rest.head?.map nodeRef) (some (.elem ptag)) p)
          (by simpa [allText] using hat) (by simpa using hlen) hp2lit hp2ok
        refine ⟨ih.1, ?_⟩
        rw [ih.2, ptext_literal_out d _ _ _ p hlit hok]
        simp [textData]
    | element t a cs2 => simp [allText] at hat
    | comment d2 => simp [allText] at hat
    | document cs2 => simp [allText] at hat
    | doctype d2 => simp [allText] at hat

@[simp] theorem condStep_true (f : Printer → Printer) (p : Printer) :
    condStep true f p = f p := by
  simp [condStep]

@[simp] theorem condStep_false (f : Printer → Printer) (p : Printer) :
    condStep false f p = p := by
  simp [condStep]

/-- Joint fuel induction for literal fidelity: on a well-formed tree a
healthy printer finishes the walk without error, and the concatenated
text payload of every literal element is a contiguous infix of the
output. -/
theorem c2_walk : ∀ fuel : Nat,
    (∀ (t : String) (a : List Attr) (cs : List Node)
      (prev parent : Option NodeRef) (p : Printer),
      Node.weight (.element t a cs) ≤ fuel →
      c2okN (.element t a cs) = true → OkP p → 0 ≤ p.literalDepth →
      (pelemF fuel (.element t a cs) prev parent p).2 = none ∧
      ∀ s ∈ litTexts (.element t a cs),
        s <:+: (pelemF fuel (.element t a cs) prev parent p).1.out) ∧
    (∀ (ptag : String) (lc : Bool) (prevRef : Option NodeRef)
      (cs : List Node) (p : Printer),
      weightList cs ≤ fuel → c2okElemKids cs = true → OkP p →
      0 ≤ p.literalDepth →
      (pkidsF fuel ptag lc prevRef cs p).2 = none ∧
      ∀ s ∈ litTextsList cs,
        s <:+: (pkidsF fuel ptag lc prevRef cs p).1.out) := by
  intro fuel
  induction fuel with
  | zero =>
    constructor
    · intro t a cs prev parent p hw
      exfalso
      simp only [Node.weight] at hw
      omega
    · intro ptag lc prevRef cs p hw hc2 hok hld
      cases cs with
      | nil =>
        refine ⟨rfl, ?_⟩
        intro s hs
        simp [litTextsList] at hs
      | cons c rest =>
        exfalso
        simp only [weightList] at hw
        omega
  | succ fuel ih =>
    constructor
    · intro t a cs prev parent p hw hc2 hok hld
      have hwcs : weightList cs ≤ fuel := by
        simp only [Node.weight] at hw
        omega
      simp only [c2okN, Bool.and_eq_true] at hc2
      obtain ⟨hvoid, hrest⟩ := hc2
      simp only [pelemF]
      cases hl : literalTags.contains t with
      | true =>
        obtain ⟨hVf, hLf, hKf, hIf, hOf⟩ := literal_tag_facts t hl
        rw [hl] at hrest
        simp only [if_true] at hrest
        rw [hVf, hKf]
        simp only [condStep_true, condStep_false, Bool.false_eq_true,
          if_false]
        cases cs with
        | nil =>
          refine ⟨by simp, ?_⟩
          intro s hs
          simp only [litTexts, hl, if_true, List.map_nil, List.flatten_nil,
            List.mem_singleton] at hs
          subst hs
          exact List.nil_infix
        | cons c rest =>
          generalize hE : enterKids (!(inlineTags.contains t ||
              (openTagF t a (c :: rest) prev parent p).1) ||
              listTags.contains t) (omitCloseTags.contains t)
              (incLit1 (openTagF t a (c :: rest) prev parent p).2) = E
          have hEreach : Reach p E := by
            rw [← hE]
            refine reach_trans (reach_openTagF t a (c :: rest) prev parent p)
              ?_
            exact reach_trans (reach_single (.incLit _)) (reach_enterKids _ _ _)
          have hEok : OkP E := reach_okp hEreach hok
          have hElit : E.inLiteral = true := by
            rw [← hE]
            simp only [Printer.inLiteral, enterKids_literalDepth]
            simp only [incLit1, openTagF_literalDepth]
            simp only [decide_eq_true_eq]
            omega
          have hlen : (c :: rest).length ≤ fuel := by
            have := length_le_weightList (c :: rest)
            omega
          obtain ⟨hkerr, hkout⟩ := pkids_literal_out (c :: rest) fuel t
            (listTags.contains t) none E hrest hlen hElit hEok
          dsimp only
          rw [hkerr]
          refine ⟨by simp, ?_⟩
          intro s hs
          simp only [litTexts, hl, if_true, List.mem_singleton] at hs
          subst hs
          have h1 : ((c :: rest).map textData).flatten <:+:
              (pkidsF fuel t (listTags.contains t) none (c :: rest) E).1.out := by
            rw [hkout]
            exact (List.suffix_append _ _).isInfix
          refine h1.trans ?_
          have h2 : Reach (pkidsF fuel t (listTags.contains t) none
              (c :: rest) E).1
              (pelemClose t (inlineTags.contains t ||
                (openTagF t a (c :: rest) prev parent p).1) true false
                (omitCloseTags.contains t)
                (leaveKids (!(inlineTags.contains t ||
                  (openTagF t a (c :: rest) prev parent p).1) ||
                  listTags.contains t)
                  (pkidsF fuel t (listTags.contains t) none (c :: rest)
                    E).1)).1 :=
            reach_trans (reach_leaveKids _ _) (reach_pelemClose _ _ _ _ _ _)
          exact (reach_out_pfx h2).isInfix
      | false =>
        simp only [condStep_false, Bool.false_or]
        cases hv : voidTags.contains t with
        | true =>
          have hkv := (void_tag_facts t hv).2
          rw [hkv]
          have hcs : cs = [] := by
            rcases (by simpa using hvoid : t ∉ voidTags ∨ cs = []) with h | h
            · exact absurd (by simpa using hv) h
            · exact h
          subst hcs
          refine ⟨by simp, ?_⟩
          intro s hs
          simp only [litTexts, hl, Bool.false_eq_true, if_false,
            litTextsList] at hs
          cases hs
        | false =>
          cases cs with
          | nil =>
            refine ⟨by simp, ?_⟩
            intro s hs
            simp only [litTexts, hl, Bool.false_eq_true, if_false,
              litTextsList] at hs
            cases hs
          | cons c rest =>
            generalize hE : enterKids (!(inlineTags.contains t ||
                (openTagF t a (c :: rest) prev parent p).1) ||
                listTags.contains t) (omitCloseTags.contains t)
                (condStep (keepSpaceTags.contains t) incKeep1
                  (openTagF t a (c :: rest) prev parent p).2) = E
            have hEreach : Reach p E := by
              rw [← hE]
              refine reach_trans (reach_openTagF t a (c :: rest) prev parent p)
                ?_
              refine reach_trans (reach_condStep (keepSpaceTags.contains t)
                incKeep1 (openTagF t a (c :: rest) prev parent p).2
                (reach_single (.incKeep _))) ?_
              exact reach_enterKids _ _ _
            have hEok : OkP E := reach_okp hEreach hok
            have hEld : 0 ≤ E.literalDepth := by
              rw [← hE]
              simp only [enterKids_literalDepth,
                condStep_incKeep_literalDepth, openTagF_literalDepth]
              omega
            have hrest2 : c2okElemKids (c :: rest) = true := by
              rw [hl] at hrest
              simpa using hrest
            have ihk := ih.2 t (listTags.contains t) none (c :: rest) E hwcs
              hrest2 hEok hEld
            generalize hr : pkidsF fuel t (listTags.contains t) none
              (c :: rest) E = r at ihk
            simp only [Bool.false_eq_true, if_false]
            rw [hr, ihk.1]
            refine ⟨by simp, ?_⟩
            intro s hs
            simp only [litTexts, hl, Bool.false_eq_true, if_false] at hs
            have h1 : s <:+: r.1.out := ihk.2 s hs
            refine h1.trans ?_
            refine (reach_out_pfx ?_).isInfix
            exact reach_trans (reach_leaveKids _ _)
              (reach_pelemClose _ _ _ _ _ _)
    · intro ptag lc prevRef cs p hw hc2 hok hld
      cases cs with
      | nil =>
        refine ⟨rfl, ?_⟩
        intro s hs
        simp [litTextsList] at hs
      | cons c rest =>
        cases c with
        | element t a cs2 =>
          simp only [c2okElemKids, Bool.and_eq_true] at hc2
          simp only [weightList] at hw
          have hwe : Node.weight (.element t a cs2) ≤ fuel := by omega
          have hwr : weightList rest ≤ fuel := by omega
          simp only [pkidsF]
          have ihe := ih.1 t a cs2 prevRef (some (.elem ptag)) p hwe hc2.1
            hok hld
          generalize hr : pelemF fuel (.element t a cs2) prevRef
            (some (.elem ptag)) p = r at ihe
          rw [ihe.1]
          have hdep := (walk_depths fuel).1 (.element t a cs2) prevRef
            (some (.elem ptag)) p
          rw [hr] at hdep
          have hrestore := hdep.1 ihe.1
          have hok2 : OkP (condStep lc Printer.endl r.1) := by
            refine reach_okp ?_ hok
            refine reach_trans ?_ (reach_condStep lc Printer.endl r.1
              (reach_single (.endl r.1)))
            rw [← hr]
            exact (walk_reach fuel).1 _ _ _ _
          have hld2 : 0 ≤ (condStep lc Printer.endl r.1).literalDepth := by
            simp only [condStep_endl_literalDepth]
            omega
          have ihk := ih.2 ptag lc (some (.elem t)) rest
            (condStep lc Printer.endl r.1) hwr hc2.2 hok2 hld2
          refine ⟨ihk.1, ?_⟩
          intro s hs
          simp only [litTextsList, List.mem_append] at hs
          cases hs with
          | inl hsl =>
            have h1 : s <:+: r.1.out := ihe.2 s hsl
            refine h1.trans ?_
            refine (reach_out_pfx ?_).isInfix
            refine reach_trans (reach_condStep lc Printer.endl r.1
              (reach_single (.endl r.1))) ?_
            exact (walk_reach fuel).2 ptag lc (some (.elem t)) rest _
          | inr hsr => exact ihk.2 s hsr
        | text d =>
          simp only [c2okElemKids] at hc2
          simp only [weightList] at hw
          have hwr : weightList rest ≤ fuel := by
            simp only [Node.weight] at hw
            omega
          simp only [pkidsF]
          have hok2 : OkP (ptext d prevRef (rest.head?.map nodeRef)
              (some (.elem ptag)) p) := reach_okp (reach_ptext _ _ _ _ _) hok
          have hld2 : 0 ≤ (ptext d prevRef (rest.head?.map nodeRef)
              (some (.elem ptag)) p).literalDepth := by
            simp only [ptext_literalDepth]
            omega
          have ihk := ih.2 ptag lc (some (.text d)) rest _ hwr hc2 hok2 hld2
          refine ⟨ihk.1, ?_⟩
          intro s hs
          simp only [litTextsList, litTexts, List.nil_append] at hs
          exact ihk.2 s hs
        | comment d =>
          simp only [c2okElemKids] at hc2
          simp only [weightList] at hw
          have hwr : weightList rest ≤ fuel := by
            simp only [Node.weight] at hw
            omega
          simp only [pkidsF]
          have ihk := ih.2 ptag lc (some .other) rest p hwr hc2 hok hld
          refine ⟨ihk.1, ?_⟩
          intro s hs
          simp only [litTextsList, litTexts, List.nil_append] at hs
          exact ihk.2 s hs
        | document cs2 => simp [c2okElemKids] at hc2
        | doctype d => simp [c2okElemKids] at hc2


/-- Literal fidelity lifted to the document child loop: on a well-formed
child list a healthy printer finishes without error and every literal
payload is an infix of the output. -/
theorem c2_doc : ∀ (cs : List Node) (fuel : Nat) (prevRef : Option NodeRef)
    (p : Printer), weightList cs ≤ fuel → c2okDocKids cs = true → OkP p →
    0 ≤ p.literalDepth →
    (pdocKids fuel prevRef cs p).2 = none ∧
    ∀ s ∈ litTextsList cs, s <:+: (pdocKids fuel prevRef cs p).1.out
  | [], fuel, prevRef, p, _, _, _, _ => by
    refine ⟨rfl, ?_⟩
    intro s hs
    simp [litTextsList] at hs
  | c :: rest, fuel, prevRef, p, hw, hc2, hok, hld => by
    cases c with
    | doctype d =>
      simp only [weightList, Node.weight] at hw
      simp only [c2okDocKids] at hc2
      simp only [pdocKids]
      have hok2 : OkP ((p.write ("<!DOCTYPE ".data ++ d ++ ">".data)).endl) :=
        okp_endl _ (okp_write _ _ hok)
      have hld2 : 0 ≤ ((p.write ("<!DOCTYPE ".data ++ d ++
          ">".data)).endl).literalDepth := by
        simpa using hld
      have ih := c2_doc rest fuel (some .other)
        ((p.write ("<!DOCTYPE ".data ++ d ++ ">".data)).endl)
        (by omega) hc2 hok2 hld2
      refine ⟨ih.1, ?_⟩
      intro s hs
      simp only [litTextsList, litTexts, List.nil_append] at hs
      exact ih.2 s hs
    | element t a cs2 =>
      simp only [weightList] at hw
      simp only [c2okDocKids, Bool.and_eq_true] at hc2
      simp only [pdocKids]
      have h1 := (c2_walk fuel).1 t a cs2 prevRef (some .other) p
        (by simp only [Node.weight] at hw ⊢; omega) hc2.1 hok hld
      have hre : Reach p (pelemF fuel (.element t a cs2) prevRef
        (some .other) p).1 := (walk_reach fuel).1 _ _ _ _
      have hdep := ((walk_depths fuel).1 (.element t a cs2) prevRef
        (some .other) p).2.1
      generalize hr : pelemF fuel (.element t a cs2) prevRef (some .other) p
        = r at h1 hre hdep
      rw [h1.1]
      have hok2 : OkP r.1 := reach_okp hre hok
      have hld2 : 0 ≤ r.1.literalDepth := le_trans hld hdep
      have ih := c2_doc rest fuel (some (.elem t)) r.1 (by omega) hc2.2
        hok2 hld2
      refine ⟨ih.1, ?_⟩
      intro s hs
      simp only [litTextsList, List.mem_append] at hs
      rcases hs with hs | hs
      · refine (h1.2 s hs).trans ?_
        exact (reach_out_pfx (reach_pdocKids fuel rest (some (.elem t))
          r.1)).isInfix
      · exact ih.2 s hs
    | text d => simp [c2okDocKids] at hc2
    | comment d => simp [c2okDocKids] at hc2
    | document cs2 => simp [c2okDocKids] at hc2

/-- The document child loop never decreases the literal or keep-space
depth counters. -/
theorem pdocKids_depths : ∀ (cs : List Node) (fuel : Nat)
    (prevRef : Option NodeRef) (p : Printer),
    p.literalDepth ≤ (pdocKids fuel prevRef cs p).1.literalDepth ∧
    p.keepSpaceDepth ≤ (pdocKids fuel prevRef cs p).1.keepSpaceDepth
  | [], _, _, p => ⟨le_refl _, le_refl _⟩
  | c :: rest, fuel, prevRef, p => by
    cases c with
    | doctype d =>
      simp only [pdocKids]
      have ih := pdocKids_depths rest fuel (some .other)
        ((p.write ("<!DOCTYPE ".data ++ d ++ ">".data)).endl)
      have h1 : ((p.write ("<!DOCTYPE ".data ++ d ++
          ">".data)).endl).literalDepth = p.literalDepth := by simp
      have h2 : ((p.write ("<!DOCTYPE ".data ++ d ++
          ">".data)).endl).keepSpaceDepth = p.keepSpaceDepth := by simp
      exact ⟨le_trans (le_of_eq h1.symm) ih.1,
        le_trans (le_of_eq h2.symm) ih.2⟩
    | element t a cs2 =>
      simp only [pdocKids]
      have hd := (walk_depths fuel).1 (.element t a cs2) prevRef
        (some .other) p
      generalize hr : pelemF fuel (.element t a cs2) prevRef (some .other) p
        = r at hd
      cases h2 : r.2 with
      | some e => exact ⟨hd.2.1, hd.2.2.1⟩
      | none =>
        have ih := pdocKids_depths rest fuel (some (.elem t)) r.1
        exact ⟨le_trans hd.2.1 ih.1, le_trans hd.2.2.1 ih.2⟩
    | text d => exact ⟨le_refl _, le_refl _⟩
    | comment d => exact ⟨le_refl _, le_refl _⟩
    | document cs2 => exact ⟨le_refl _, le_refl _⟩



/-- The final printer state of `Print` is the walk's final state,
whichever error is returned. -/
theorem runPrint_fst (resp : Nat → Option Nat) (root : Node) (ind : Str)
    (w : Int) :
    (runPrint resp root ind w).1 =
    (pdocF (Node.weight root) root (initPrinter resp ind w)).1 := by
  unfold runPrint
  cases h2 : (pdocF (Node.weight root) root (initPrinter resp ind w)).2 <;>
    simp [h2]

/-! ### Non-negativity of the depth counters at every point of the walk -/

theorem safe_refl (p : Printer) : SafeReach p p := Relation.ReflTransGen.refl

theorem safe_trans {p q r : Printer} (h₁ : SafeReach p q)
    (h₂ : SafeReach q r) : SafeReach p r := Relation.ReflTransGen.trans h₁ h₂

theorem safe_single {p q : Printer} (h : PStep p q) (hq : DepthOk q) :
    SafeReach p q := Relation.ReflTransGen.single ⟨h, hq⟩

theorem safeReach_depthOk {p q : Printer} (h : SafeReach p q)
    (hp : DepthOk p) : DepthOk q := by
  induction h with
  | refl => exact hp
  | tail _ hstep _ => exact hstep.2

theorem depthOk_write (p : Printer) (s : Str) (hp : DepthOk p) :
    DepthOk (p.write s) :=
  ⟨by simpa using hp.1, by simpa using hp.2⟩

theorem depthOk_endl (p : Printer) (hp : DepthOk p) : DepthOk p.endl :=
  ⟨by simpa using hp.1, by simpa using hp.2⟩

theorem depthOk_maybeIndent (p : Printer) (hp : DepthOk p) :
    DepthOk p.maybeIndent :=
  ⟨by simpa using hp.1, by simpa using hp.2⟩

theorem depthOk_wrap (p : Printer) (s extra : Str) (hp : DepthOk p) :
    DepthOk (p.wrap s extra) :=
  ⟨by simpa using hp.1, by simpa using hp.2⟩

theorem safe_write (p : Printer) (s : Str) (hp : DepthOk p) :
    SafeReach p (p.write s) :=
  safe_single (.write p s) (depthOk_write p s hp)

theorem safe_endl (p : Printer) (hp : DepthOk p) : SafeReach p p.endl :=
  safe_single (.endl p) (depthOk_endl p hp)

theorem safe_maybeIndent (p : Printer) (hp : DepthOk p) :
    SafeReach p p.maybeIndent :=
  safe_single (.maybeIndent p) (depthOk_maybeIndent p hp)

theorem safe_wrap (p : Printer) (s extra : Str) (hp : DepthOk p) :
    SafeReach p (p.wrap s extra) :=
  safe_single (.wrap p s extra) (depthOk_wrap p s extra hp)

theorem safe_incLevel (p : Printer) (hp : DepthOk p) :
    SafeReach p (incLevel1 p) :=
  safe_single (.incLevel p) ⟨hp.1, hp.2⟩

theorem safe_decLevel (p : Printer) (hp : DepthOk p) :
    SafeReach p (decLevel1 p) :=
  safe_single (.decLevel p) ⟨hp.1, hp.2⟩

theorem safe_incLit (p : Printer) (hp : DepthOk p) :
    SafeReach p (incLit1 p) :=
  safe_single (.incLit p)
    ⟨by have := hp.1; simp only [incLit1]; omega, hp.2⟩

theorem safe_incKeep (p : Printer) (hp : DepthOk p) :
    SafeReach p (incKeep1 p) :=
  safe_single (.incKeep p)
    ⟨hp.1, by have := hp.2; simp only [incKeep1]; omega⟩

theorem safe_decLit (p : Printer) (hk : 0 ≤ p.keepSpaceDepth)
    (h1 : 1 ≤ p.literalDepth) : SafeReach p (decLit1 p) :=
  safe_single (.decLit p) ⟨by simp only [decLit1]; omega, hk⟩

theorem safe_decKeep (p : Printer) (hl : 0 ≤ p.literalDepth)
    (h1 : 1 ≤ p.keepSpaceDepth) : SafeReach p (decKeep1 p) :=
  safe_single (.decKeep p) ⟨hl, by simp only [decKeep1]; omega⟩

theorem safe_ite (b : Bool) {p q : Printer} (h : SafeReach p q) :
    SafeReach p (if b then q else p) := by
  split
  · exact h
  · exact safe_refl p

theorem safe_condStep (b : Bool) (f : Printer → Printer) (p : Printer)
    (h : b = true → SafeReach p (f p)) : SafeReach p (condStep b f p) := by
  unfold condStep
  cases b with
  | true => simpa using h rfl
  | false => simpa using safe_refl p

theorem safe_enterKids (doNest omitClose : Bool) (p : Printer)
    (hp : DepthOk p) : SafeReach p (enterKids doNest omitClose p) := by
  unfold enterKids
  split
  · refine safe_trans (safe_ite (!omitClose) (safe_endl p hp)) ?_
    refine safe_incLevel _ ?_
    split
    · exact depthOk_endl p hp
    · exact hp
  · exact safe_refl p

theorem safe_leaveKids (doNest : Bool) (p : Printer) (hp : DepthOk p) :
    SafeReach p (leaveKids doNest p) := by
  unfold leaveKids
  split
  · exact safe_trans (safe_decLevel p hp) (safe_endl _ ⟨hp.1, hp.2⟩)
  · exact safe_refl p

theorem safe_writeTokens (u : Nat) (wi : Str) :
    ∀ (ts : List Str) (i : Nat) (p : Printer), DepthOk p →
      SafeReach p (writeTokens u wi i ts p)
  | [], _, p, _ => safe_refl p
  | t :: rest, i, p, hp => by
    simp only [writeTokens]
    split
    · exact safe_trans (safe_write p t hp)
        (safe_writeTokens u wi rest (i + 1) _ (depthOk_write p t hp))
    · exact safe_trans (safe_wrap p t wi hp)
        (safe_writeTokens u wi rest (i + 1) _ (depthOk_wrap p t wi hp))

theorem safe_writeWords (ss es : Bool) (ws total : Nat) :
    ∀ (l : List Str) (i : Nat) (p : Printer), DepthOk p →
      SafeReach p (writeWords ss es ws total i l p)
  | [], _, p, _ => safe_refl p
  | w :: rest, i, p, hp => by
    simp only [writeWords]
    split
    · exact safe_trans (safe_write p _ hp)
        (safe_writeWords ss es ws total rest (i + 1) _ (depthOk_write p _ hp))
    · exact safe_trans (safe_wrap p _ _ hp)
        (safe_writeWords ss es ws total rest (i + 1) _ (depthOk_wrap p _ _ hp))

theorem safe_ptext (d : Str) (prev next parent : Option NodeRef)
    (p : Printer) (hp : DepthOk p) :
    SafeReach p (ptext d prev next parent p) := by
  unfold ptext
  split
  · exact safe_refl p
  split
  · exact safe_write p d hp
  dsimp only
  split
  · exact safe_write p _ hp
  split
  · exact safe_refl p
  split
  · exact safe_trans (safe_maybeIndent p hp)
      (safe_write _ _ (depthOk_maybeIndent p hp))
  · exact safe_trans (safe_maybeIndent p hp)
      (safe_writeWords _ _ _ _ _ 0 _ (depthOk_maybeIndent p hp))

theorem safe_openTagEndl (tag : String) (tagLen : Nat)
    (prev parent : Option NodeRef) (p : Printer) (hp : DepthOk p) :
    SafeReach p (openTagEndl tag tagLen prev parent p) := by
  unfold openTagEndl
  dsimp only
  split
  · exact safe_endl p hp
  · exact safe_refl p

theorem depthOk_openTagEndl (tag : String) (tagLen : Nat)
    (prev parent : Option NodeRef) (p : Printer) (hp : DepthOk p) :
    DepthOk (openTagEndl tag tagLen prev parent p) := by
  have h := openTagEndl_depths tag tagLen prev parent p
  exact ⟨by rw [h.2.1]; exact hp.1, by rw [h.2.2]; exact hp.2⟩

theorem safe_openTagF (tag : String) (attrs : List Attr)
    (children : List Node) (prev parent : Option NodeRef) (p : Printer)
    (hp : DepthOk p) :
    SafeReach p (openTagF tag attrs children prev parent p).2 := by
  unfold openTagF
  dsimp only
  have h1 := depthOk_openTagEndl tag
    (blen (openTagTokens tag attrs).flatten) prev parent p hp
  refine safe_trans (safe_openTagEndl tag
    (blen (openTagTokens tag attrs).flatten) prev parent p hp) ?_
  refine safe_trans (safe_maybeIndent _ h1) ?_
  exact safe_writeTokens _ _ _ 0 _ (depthOk_maybeIndent _ h1)

theorem safe_pelemClose (tag : String)
    (inline literal keepSpace omitClose : Bool) (p : Printer)
    (hp : DepthOk p)
    (hl : literal = true → 1 ≤ p.literalDepth)
    (hk : keepSpace = true → 1 ≤ p.keepSpaceDepth) :
    SafeReach p (pelemClose tag inline literal keepSpace omitClose p).1 := by
  have hs1 : SafeReach p (condStep (!omitClose)
      (fun q => (q.maybeIndent).write (closeTagStr tag)) p) :=
    safe_condStep _ _ p (fun _ => safe_trans (safe_maybeIndent p hp)
      (safe_write _ _ (depthOk_maybeIndent p hp)))
  have h1ld : (condStep (!omitClose)
      (fun q => (q.maybeIndent).write (closeTagStr tag)) p).literalDepth =
      p.literalDepth := by
    unfold condStep
    split <;> simp
  have h1kd : (condStep (!omitClose)
      (fun q => (q.maybeIndent).write (closeTagStr tag)) p).keepSpaceDepth =
      p.keepSpaceDepth := by
    unfold condStep
    split <;> simp
  show SafeReach p (condStep (!inline) Printer.endl (condStep keepSpace
    decKeep1 (condStep literal decLit1 (condStep (!omitClose)
      (fun q => (q.maybeIndent).write (closeTagStr tag)) p))))
  generalize condStep (!omitClose)
      (fun q => (q.maybeIndent).write (closeTagStr tag)) p = q1
      at hs1 h1ld h1kd
  have hq1ok : DepthOk q1 :=
    ⟨by rw [h1ld]; exact hp.1, by rw [h1kd]; exact hp.2⟩
  have hs2 : SafeReach q1 (condStep literal decLit1 q1) :=
    safe_condStep _ _ _ (fun hb => safe_decLit q1 hq1ok.2
      (by rw [h1ld]; exact hl hb))
  have h2ld : (condStep literal decLit1 q1).literalDepth =
      q1.literalDepth - (if literal then 1 else 0) := by
    unfold condStep
    split <;> simp [decLit1]
  have h2kd : (condStep literal decLit1 q1).keepSpaceDepth =
      q1.keepSpaceDepth := by
    unfold condStep
    split <;> simp [decLit1]
  generalize condStep literal decLit1 q1 = q2 at hs2 h2ld h2kd
  have hq2ok : DepthOk q2 := by
    refine ⟨?_, ?_⟩
    · rw [h2ld, h1ld]
      cases literal with
      | false =>
        have := hp.1
        simp only [Bool.false_eq_true, if_false]
        omega
      | true =>
        have := hl rfl
        simp only [if_true]
        omega
    · rw [h2kd, h1kd]
      exact hp.2
  have hs3 : SafeReach q2 (condStep keepSpace decKeep1 q2) :=
    safe_condStep _ _ _ (fun hb => safe_decKeep q2 hq2ok.1
      (by rw [h2kd, h1kd]; exact hk hb))
  have h3ld : (condStep keepSpace decKeep1 q2).literalDepth =
      q2.literalDepth := by
    unfold condStep
    split <;> simp [decKeep1]
  have h3kd : (condStep keepSpace decKeep1 q2).keepSpaceDepth =
      q2.keepSpaceDepth - (if keepSpace then 1 else 0) := by
    unfold condStep
    split <;> simp [decKeep1]
  generalize condStep keepSpace decKeep1 q2 = q3 at hs3 h3ld h3kd
  have hq3ok : DepthOk q3 := by
    refine ⟨by rw [h3ld]; exact hq2ok.1, ?_⟩
    rw [h3kd, h2kd, h1kd]
    cases keepSpace with
    | false =>
      have := hp.2
      simp only [Bool.false_eq_true, if_false]
      omega
    | true =>
      have := hk rfl
      simp only [if_true]
      omega
  have hs4 : SafeReach q3 (condStep (!inline) Printer.endl q3) :=
    safe_condStep _ _ _ (fun _ => safe_endl q3 hq3ok)
  exact safe_trans hs1 (safe_trans hs2 (safe_trans hs3 hs4))

/-- Joint fuel induction: starting from non-negative depth counters,
`element` and its child loop move through primitive transitions all of
whose intermediate states keep both counters non-negative. -/
theorem safe_walk : ∀ fuel : Nat,
    (∀ (n : Node) (prev parent : Option NodeRef) (p : Printer), DepthOk p →
      SafeReach p (pelemF fuel n prev parent p).1) ∧
    (∀ (ptag : String) (lc : Bool) (prevRef : Option NodeRef)
      (cs : List Node) (p : Printer), DepthOk p →
      SafeReach p (pkidsF fuel ptag lc prevRef cs p).1) := by
  intro fuel
  induction fuel with
  | zero =>
    constructor
    · intro n prev parent p _
      exact safe_refl p
    · intro ptag lc prevRef cs p _
      cases cs with
      | nil => exact safe_refl p
      | cons c rest => exact safe_refl p
  | succ fuel ih =>
    constructor
    · intro n prev parent p hp
      cases n with
      | document cs => exact safe_refl p
      | doctype d => exact safe_refl p
      | text d => exact safe_refl p
      | comment d => exact safe_refl p
      | element tag attrs children =>
        simp only [pelemF]
        have h0 : SafeReach p (openTagF tag attrs children prev parent p).2 :=
          safe_openTagF tag attrs children prev parent p hp
        have h0ld : (openTagF tag attrs children prev
            parent p).2.literalDepth = p.literalDepth :=
          openTagF_literalDepth tag attrs children prev parent p
        have h0kd : (openTagF tag attrs children prev
            parent p).2.keepSpaceDepth = p.keepSpaceDepth :=
          openTagF_keepSpaceDepth tag attrs children prev parent p
        generalize (openTagF tag attrs children prev parent p).2 = q
          at h0 h0ld h0kd
        have hq1 : SafeReach q
            (condStep (literalTags.contains tag) incLit1 q) :=
          safe_condStep _ _ _
            (fun _ => safe_incLit q (safeReach_depthOk h0 hp))
        have hq1ld : (condStep (literalTags.contains tag) incLit1
            q).literalDepth =
            q.literalDepth + (if literalTags.contains tag then 1 else 0) :=
          condStep_incLit_literalDepth _ _
        have hq1kd : (condStep (literalTags.contains tag) incLit1
            q).keepSpaceDepth = q.keepSpaceDepth :=
          condStep_incLit_keepSpaceDepth _ _
        generalize condStep (literalTags.contains tag) incLit1 q = q2
          at hq1 hq1ld hq1kd
        have hq2 : SafeReach q2
            (condStep (keepSpaceTags.contains tag) incKeep1 q2) :=
          safe_condStep _ _ _ (fun _ => safe_incKeep q2
            (safeReach_depthOk (safe_trans h0 hq1) hp))
        have hq2ld : (condStep (keepSpaceTags.contains tag) incKeep1
            q2).literalDepth = q2.literalDepth :=
          condStep_incKeep_literalDepth _ _
        have hq2kd : (condStep (keepSpaceTags.contains tag) incKeep1
            q2).keepSpaceDepth =
            q2.keepSpaceDepth +
              (if keepSpaceTags.contains tag then 1 else 0) :=
          condStep_incKeep_keepSpaceDepth _ _
        generalize condStep (keepSpaceTags.contains tag) incKeep1 q2 = q3
          at hq2 hq2ld hq2kd
        have hpq3 : SafeReach p q3 := safe_trans h0 (safe_trans hq1 hq2)
        have hq3ok : DepthOk q3 := safeReach_depthOk hpq3 hp
        have hq3ld : q3.literalDepth = p.literalDepth +
            (if literalTags.contains tag then 1 else 0) := by
          rw [hq2ld, hq1ld, h0ld]
        have hq3kd : q3.keepSpaceDepth = p.keepSpaceDepth +
            (if keepSpaceTags.contains tag then 1 else 0) := by
          rw [hq2kd, hq1kd, h0kd]
        split
        · split
          · exact hpq3
          · exact hpq3
        · split
          · refine safe_trans hpq3
              (safe_pelemClose _ _ _ _ _ q3 hq3ok ?_ ?_)
            · intro hb
              rw [hb] at hq3ld
              simp at hq3ld
              have h1 := hp.1
              omega
            · intro hb
              rw [hb] at hq3kd
              simp at hq3kd
              have h1 := hp.2
              omega
          · rename_i c rest
            have hE : SafeReach q3 (enterKids (!(inlineTags.contains tag ||
                (openTagF tag attrs (c :: rest) prev parent p).1) ||
                listTags.contains tag) (omitCloseTags.contains tag) q3) :=
              safe_enterKids _ _ q3 hq3ok
            have hEld : (enterKids (!(inlineTags.contains tag ||
                (openTagF tag attrs (c :: rest) prev parent p).1) ||
                listTags.contains tag) (omitCloseTags.contains tag)
                q3).literalDepth = q3.literalDepth :=
              enterKids_literalDepth _ _ _
            have hEkd : (enterKids (!(inlineTags.contains tag ||
                (openTagF tag attrs (c :: rest) prev parent p).1) ||
                listTags.contains tag) (omitCloseTags.contains tag)
                q3).keepSpaceDepth = q3.keepSpaceDepth :=
              enterKids_keepSpaceDepth _ _ _
            generalize enterKids (!(inlineTags.contains tag ||
                (openTagF tag attrs (c :: rest) prev parent p).1) ||
                listTags.contains tag) (omitCloseTags.contains tag) q3 = q4
              at hE hEld hEkd
            have hq4ok : DepthOk q4 := safeReach_depthOk hE hq3ok
            have hkids : SafeReach q4 (pkidsF fuel tag
                (listTags.contains tag) none (c :: rest) q4).1 :=
              ih.2 tag (listTags.contains tag) none (c :: rest) q4 hq4ok
            have hmono := (walk_depths fuel).2 tag (listTags.contains tag)
              none (c :: rest) q4
            generalize pkidsF fuel tag (listTags.contains tag) none
              (c :: rest) q4 = r at hkids hmono
            have hrok : DepthOk r.1 := safeReach_depthOk hkids hq4ok
            cases hr : r.2 with
            | some e => exact safe_trans hpq3 (safe_trans hE hkids)
            | none =>
              dsimp only
              refine safe_trans hpq3 (safe_trans hE (safe_trans hkids
                (safe_trans (safe_leaveKids _ r.1 hrok)
                  (safe_pelemClose _ _ _ _ _ _ ?_ ?_ ?_))))
              · exact ⟨by simpa using hrok.1, by simpa using hrok.2⟩
              · intro hb
                rw [hb] at hq3ld
                simp at hq3ld
                have h1 := hp.1
                have hm := hmono.2.1
                rw [hEld] at hm
                simp only [leaveKids_literalDepth]
                omega
              · intro hb
                rw [hb] at hq3kd
                simp at hq3kd
                have h1 := hp.2
                have hm := hmono.2.2.1
                rw [hEkd] at hm
                simp only [leaveKids_keepSpaceDepth]
                omega
    · intro ptag lc prevRef cs p hp
      cases cs with
      | nil => exact safe_refl p
      | cons c rest =>
        cases c with
        | element t a cs2 =>
          simp only [pkidsF]
          have h0 : SafeReach p (pelemF fuel (.element t a cs2) prevRef
              (some (.elem ptag)) p).1 := ih.1 _ _ _ _ hp
          generalize pelemF fuel (.element t a cs2) prevRef
            (some (.elem ptag)) p = r at h0
          have hrok : DepthOk r.1 := safeReach_depthOk h0 hp
          cases hr : r.2 with
          | some e => exact h0
          | none =>
            dsimp only
            refine safe_trans h0 ?_
            refine safe_trans (safe_condStep lc Printer.endl r.1
              (fun _ => safe_endl r.1 hrok)) ?_
            refine ih.2 ptag lc _ rest _ ?_
            exact ⟨by simpa using hrok.1, by simpa using hrok.2⟩
        | text d =>
          simp only [pkidsF]
          refine safe_trans (safe_ptext d prevRef (rest.head?.map nodeRef)
            (some (.elem ptag)) p hp) ?_
          refine ih.2 ptag lc _ rest _ ?_
          exact ⟨by simpa using hp.1, by simpa using hp.2⟩
        | comment d =>
          simp only [pkidsF]
          exact ih.2 ptag lc _ rest p hp
        | document cs2 =>
          simp only [pkidsF]
          exact safe_refl p
        | doctype d =>
          simp only [pkidsF]
          exact safe_refl p

theorem safe_pdocKids (fuel : Nat) :
    ∀ (cs : List Node) (prevRef : Option NodeRef) (p : Printer), DepthOk p →
      SafeReach p (pdocKids fuel prevRef cs p).1
  | [], _, p, _ => safe_refl p
  | c :: rest, prevRef, p, hp => by
    cases c with
    | doctype d =>
      simp only [pdocKids]
      refine safe_trans
        (safe_write p ("<!DOCTYPE ".data ++ d ++ ">".data) hp) ?_
      refine safe_trans (safe_endl _ (depthOk_write p _ hp)) ?_
      exact safe_pdocKids fuel rest _ _
        (depthOk_endl _ (depthOk_write p _ hp))
    | element t a cs2 =>
      simp only [pdocKids]
      have h0 : SafeReach p (pelemF fuel (.element t a cs2) prevRef
          (some .other) p).1 := (safe_walk fuel).1 _ _ _ _ hp
      generalize pelemF fuel (.element t a cs2) prevRef (some .other) p = r
        at h0
      have hrok : DepthOk r.1 := safeReach_depthOk h0 hp
      cases hr : r.2 with
      | some e => exact h0
      | none => exact safe_trans h0 (safe_pdocKids fuel rest _ _ hrok)
    | document cs2 => exact safe_refl p
    | text d => exact safe_refl p
    | comment d => exact safe_refl p

theorem safe_pdocF (fuel : Nat) (n : Node) (p : Printer) (hp : DepthOk p) :
    SafeReach p (pdocF fuel n p).1 := by
  cases n with
  | document cs => exact safe_pdocKids fuel cs none p hp
  | doctype d => exact safe_refl p
  | element t a cs => exact safe_refl p
  | text d => exact safe_refl p
  | comment d => exact safe_refl p


/-- C3: for a text node outside literal and keep-space regions, the
collapse step of `collapseText` replaces each maximal ASCII-whitespace
run with one space, then drops a leading space exactly when neither the
parent nor the previous sibling is inline, and a trailing space exactly
when neither the parent nor the next sibling is inline. -/
theorem c3_collapse_runs_and_trim (s : Str)
    (prev next parent : Option NodeRef) :
    collapseText s prev next parent = collapseTextSpec s prev next parent :=
  collapseText_eq_spec s prev next parent

/-- C9 (amended): a comment child of an element is skipped with no
output and no error, but a comment child of the root Document node is a
structural error, not silently dropped. -/
theorem c9_comment_handling (fuel : Nat) (ptag : String) (lc : Bool)
    (prevRef : Option NodeRef) (d : Str) (rest : List Node) (p : Printer) :
    pkidsF (fuel + 1) ptag lc prevRef (.comment d :: rest) p =
      pkidsF fuel ptag lc (some .other) rest p ∧
    pdocKids fuel prevRef (.comment d :: rest) p =
      (p, some (.structural "unhandled doc child")) :=
  ⟨rfl, rfl⟩

/-- C5 (amended): the document loop prints a doctype line for each
Doctype child and recursively prints every Element child (not exactly
one); a text or comment child at document level, or a non-Document
root, is an immediate structural error. -/
theorem c5_doc_children (fuel : Nat) (prevRef : Option NodeRef)
    (rest : List Node) (p : Printer) (d dd dt : Str) (t : String)
    (a : List Attr) (cs : List Node) :
    pdocKids fuel prevRef [] p = (p, none) ∧
    pdocKids fuel prevRef (.doctype d :: rest) p =
      pdocKids fuel (some .other) rest
        ((p.write ("<!DOCTYPE ".data ++ d ++ ">".data)).endl) ∧
    ((pelemF fuel (.element t a cs) prevRef (some .other) p).2 = none →
      pdocKids fuel prevRef (.element t a cs :: rest) p =
        pdocKids fuel (some (.elem t)) rest
          (pelemF fuel (.element t a cs) prevRef (some .other) p).1) ∧
    (∀ e, (pelemF fuel (.element t a cs) prevRef (some .other) p).2 = some e →
      pdocKids fuel prevRef (.element t a cs :: rest) p =
        ((pelemF fuel (.element t a cs) prevRef (some .other) p).1, some e)) ∧
    pdocKids fuel prevRef (.comment dd :: rest) p =
      (p, some (.structural "unhandled doc child")) ∧
    pdocKids fuel prevRef (.text dt :: rest) p =
      (p, some (.structural "unhandled doc child")) ∧
    (∀ n : Node, (∀ kids : List Node, n ≠ .document kids) →
      pdocF fuel n p =
        (p, some (.structural "root node has non-document type"))) := by
  refine ⟨rfl, rfl, ?_, ?_, rfl, rfl, ?_⟩
  · intro h
    simp only [pdocKids]
    rw [h]
  · intro e h
    simp only [pdocKids]
    rw [h]
  · intro n hn
    cases n with
    | document kids => exact absurd rfl (hn kids)
    | doctype d2 => rfl
    | element t2 a2 cs2 => rfl
    | text d2 => rfl
    | comment d2 => rfl

/-- C4 (amended): once a sink write has failed, every later state of the
walk keeps the same first error and emits nothing further (out and the
write log are frozen); the walk's final state is what `Print` exposes,
and when the walk itself reports no structural error, `Print` returns
the recorded first I/O error. -/
theorem c4_sticky_writes (e : Nat) (p q : Printer) (resp : Nat → Option Nat)
    (root : Node) (ind : Str) (w : Int) (h : Reach p q)
    (he : p.werr = some e) :
    (q.out = p.out ∧ q.wlog = p.wlog ∧ q.werr = some e) ∧
    Reach (initPrinter resp ind w) (runPrint resp root ind w).1 ∧
    ((pdocF (Node.weight root) root (initPrinter resp ind w)).2 = none →
      (runPrint resp root ind w).2 = Option.map PrintError.ioErr
        (pdocF (Node.weight root) root (initPrinter resp ind w)).1.werr) := by
  refine ⟨reach_sticky e h he, ?_, ?_⟩
  · rw [runPrint_fst]
    exact reach_pdocF (Node.weight root) root (initPrinter resp ind w)
  · intro h2
    simp only [runPrint, h2]

/-- C10: the literal and keep-space depth counters are non-negative at
every point of every `Print` run: they start at zero, and the whole walk
is a chain of primitive transitions each of whose intermediate states
keeps both counters non-negative (`SafeReach`); moreover any element
call started from non-negative counters moves only through such states,
a successful call restores the indentation level and both counters
exactly, and the counters never decrease across a call. -/
theorem c10_depth_invariants (fuel : Nat) (n : Node)
    (prev parent : Option NodeRef) (p : Printer) (resp : Nat → Option Nat)
    (root : Node) (ind : Str) (w : Int) :
    ((pelemF fuel n prev parent p).2 = none →
      (pelemF fuel n prev parent p).1.level = p.level ∧
      (pelemF fuel n prev parent p).1.literalDepth = p.literalDepth ∧
      (pelemF fuel n prev parent p).1.keepSpaceDepth = p.keepSpaceDepth) ∧
    p.literalDepth ≤ (pelemF fuel n prev parent p).1.literalDepth ∧
    p.keepSpaceDepth ≤ (pelemF fuel n prev parent p).1.keepSpaceDepth ∧
    (DepthOk p → SafeReach p (pelemF fuel n prev parent p).1) ∧
    (initPrinter resp ind w).literalDepth = 0 ∧
    (initPrinter resp ind w).keepSpaceDepth = 0 ∧
    SafeReach (initPrinter resp ind w) (runPrint resp root ind w).1 ∧
    0 ≤ (runPrint resp root ind w).1.literalDepth ∧
    0 ≤ (runPrint resp root ind w).1.keepSpaceDepth := by
  have hd := (walk_depths fuel).1 n prev parent p
  have hinit : DepthOk (initPrinter resp ind w) := ⟨le_refl 0, le_refl 0⟩
  have hsr : SafeReach (initPrinter resp ind w)
      (runPrint resp root ind w).1 := by
    rw [runPrint_fst]
    exact safe_pdocF (Node.weight root) root (initPrinter resp ind w) hinit
  have hfin := safeReach_depthOk hsr hinit
  exact ⟨hd.1, hd.2.1, hd.2.2.1,
    fun hp => (safe_walk fuel).1 n prev parent p hp,
    rfl, rfl, hsr, hfin.1, hfin.2⟩

/-- C2 (amended): for a document root whose tree is well-formed — void
elements childless, and under every literal (`script`/`style`/
`noscript`) element only text — `Print` succeeds and the concatenated
text payload of every literal element appears byte-for-byte, as a
contiguous run, in the output. -/
theorem c2_literal_fidelity (cs : List Node) (ind : Str) (w : Int)
    (h : c2okN (.document cs) = true) :
    printErr (.document cs) ind w = none ∧
    ∀ s ∈ litTexts (.document cs), s <:+: printOut (.document cs) ind w := by
  have hok : OkP (initPrinter okResp ind w) := ⟨rfl, rfl⟩
  have hld : (0:Int) ≤ (initPrinter okResp ind w).literalDepth := le_refl 0
  have hwt : weightList cs ≤ Node.weight (.document cs) := by
    simp only [Node.weight]
    omega
  have h1 := c2_doc cs (Node.weight (.document cs)) none
    (initPrinter okResp ind w) hwt (by simpa [c2okN] using h) hok hld
  have hwerr : (pdocKids (Node.weight (.document cs)) none cs
      (initPrinter okResp ind w)).1.werr = none :=
    (reach_okp (reach_pdocKids _ cs none _) hok).2
  constructor
  · simp only [printErr, runPrint, pdocF, h1.1, hwerr, Option.map_none']
  · intro s hs
    unfold printOut
    rw [runPrint_fst]
    exact h1.2 s hs


/-- C1 counterexample: with wrap width 4, the glued run of inline tokens
`aa<b>cc</b>` forms an 11-byte line although no single written token
exceeds the width. -/
theorem c1_counterexample : ¬ claimC1 docC1ce [] 4 := by
  unfold claimC1
  decide

/-- C2 counterexample: the only content under the `script` element is
text, yet its payload `X` never reaches the output, because the `script`
sits below a void `br` element whose children are skipped. -/
theorem c2_counterexample : litOnlyText docC2ce = true ∧
    printErr docC2ce [] 80 = none ∧
    ¬ ("X".data <:+: printOut docC2ce [] 80) :=
  ⟨by decide, rfl, by decide⟩

/-- C2 witness: a well-formed document whose `script` payload `a<b`
appears verbatim in the output. -/
theorem c2_literal_fidelity_witness : c2okN docC2w = true ∧
    (printErr docC2w [] 80 = none ∧
     ∀ s ∈ litTexts docC2w, s <:+: printOut docC2w [] 80) :=
  ⟨by decide, c2_literal_fidelity [.element "html" []
    [.element "script" [] [.text "a<b".data]]] [] 80 (by decide)⟩

/-- C9 counterexample: a comment as a direct child of the Document root
makes `Print` fail with a structural error instead of being silently
dropped. -/
theorem c9_counterexample : printErr docC9ce [] 80 =
    some (.walkErr (.structural "unhandled doc child")) ∧
    printOut docC9ce [] 80 = [] := ⟨rfl, rfl⟩

/-- C4 counterexample: the doctype write fails (recording I/O error 7),
but the comment child then aborts the walk, and `Print` returns the
structural error instead of the first I/O error. -/
theorem c4_counterexample : (runPrint failResp docC4ce [] 80).1.werr = some 7 ∧
    (runPrint failResp docC4ce [] 80).2 =
      some (.walkErr (.structural "unhandled doc child")) := ⟨rfl, rfl⟩

/-- C4 witness: after the first failed write every later write is a
no-op with the error latched, at the concrete failing sink. -/
theorem c4_sticky_writes_witness :
    ((((initPrinter failResp [] 80).write [' ']).write ['a']).out =
        ((initPrinter failResp [] 80).write [' ']).out ∧
      (((initPrinter failResp [] 80).write [' ']).write ['a']).wlog =
        ((initPrinter failResp [] 80).write [' ']).wlog ∧
      (((initPrinter failResp [] 80).write [' ']).write ['a']).werr =
        some 7) ∧
    Reach (initPrinter failResp [] 80) (runPrint failResp docC4ce [] 80).1 ∧
    ((pdocF (Node.weight docC4ce) docC4ce
        (initPrinter failResp [] 80)).2 = none →
      (runPrint failResp docC4ce [] 80).2 = Option.map PrintError.ioErr
        (pdocF (Node.weight docC4ce) docC4ce
          (initPrinter failResp [] 80)).1.werr) :=
  c4_sticky_writes 7 _ _ failResp docC4ce [] 80
    (reach_single (PStep.write _ _)) rfl

/-- C5 counterexample: a document with two element children prints both
of them without error, refuting "exactly one Element child is
recursively printed". -/
theorem c5_counterexample : printErr docC5ce [] 80 = none ∧
    "<div></div>".data <:+: printOut docC5ce [] 80 ∧
    "<p></p>".data <:+: printOut docC5ce [] 80 :=
  ⟨rfl, by decide, by decide⟩

/-- C6 counterexample: the `ol` element with a single short text child
is selected for inline promotion (`forceInline` is true), yet its
list-layout tag still spreads it over three lines. -/
theorem c6_counterexample : (openTagF "ol" [] [.text "x".data] none
      (some .other) (initPrinter okResp "  ".data 80)).1 = true ∧
    printOut docC6ce "  ".data 80 = "<ol>\n  x\n</ol>".data := ⟨rfl, rfl⟩


/-- Byte length distributes over concatenation. -/
theorem blen_append (a b : Str) : blen (a ++ b) = blen a + blen b := by
  simp [blen]

/-- On a healthy printer a write advances the line width by the payload
byte length. -/
theorem write_lineWidth_ok (p : Printer) (s : Str) (h : OkP p) :
    (p.write s).lineWidth = p.lineWidth + (blen s : Int) := by
  unfold Printer.write
  rw [h.2]
  simp only [Option.isSome_none, Bool.false_eq_true, if_false]
  rw [h.1]
  rfl

/-- After `endl` the printer is at a line start, except inside a literal
or keep-space region. -/
theorem endl_lineStart_false (p : Printer) (h : p.endl.lineStart = false) :
    (p.inLiteral || p.inKeepSpace) = true := by
  unfold Printer.endl at h
  cases hc : (p.inLiteral || p.inKeepSpace) with
  | true => rfl
  | false =>
    simp only [hc, Bool.false_eq_true, if_false] at h
    cases hls : p.lineStart with
    | true => simp [hls] at h
    | false => simp [hls] at h

/-- Inside a literal or keep-space region no element is promoted to
inline. -/
theorem forceInlineF_in_region (tag : String) (children : List Node)
    (tagLen : Nat) (p : Printer)
    (h : (p.inLiteral || p.inKeepSpace) = true) :
    forceInlineF tag children tagLen p = false := by
  unfold forceInlineF
  cases hl : p.inLiteral with
  | true => simp [hl]
  | false =>
    cases hk : p.inKeepSpace with
    | true => simp [hk]
    | false =>
      rw [hl, hk] at h
      simp at h

/-- The printer state `openTag` produces does not depend on the node's
children: the `forceInline` flag feeds the token-emission mode only in
situations where its value is forced. -/
theorem openTagF_snd_children_indep (tag : String) (attrs : List Attr)
    (cs : List Node) (prev parent : Option NodeRef) (p : Printer) :
    (openTagF tag attrs cs prev parent p).2 =
    (openTagF tag attrs [] prev parent p).2 := by
  unfold openTagF
  dsimp only
  cases hsl : (openTagEndl tag (blen (openTagTokens tag attrs).flatten)
      prev parent p).lineStart with
  | true => simp [unwrapCount, hsl]
  | false =>
    cases hinl : inlineTags.contains tag with
    | true => simp [unwrapCount, hsl, hinl]
    | false =>
      have hP : openTagEndl tag (blen (openTagTokens tag attrs).flatten)
          prev parent p = p.endl := by
        unfold openTagEndl
        rw [hinl]
        simp
      rw [hP] at hsl
      have hreg := endl_lineStart_false p hsl
      have hreg2 : (((openTagEndl tag
          (blen (openTagTokens tag attrs).flatten) prev parent
          p).maybeIndent).inLiteral ||
          ((openTagEndl tag (blen (openTagTokens tag attrs).flatten) prev
          parent p).maybeIndent).inKeepSpace) = true := by
        rw [hP]
        simpa using hreg
      rw [forceInlineF_in_region _ cs _ _ hreg2,
        forceInlineF_in_region _ [] _ _ hreg2]

/-- C8: a void element prints exactly as it would with no children at
all — its children are never walked and no closing tag is emitted — and
the element call reports success. -/
theorem c8_void_children (fuel : Nat) (t : String) (a : List Attr)
    (cs : List Node) (prev parent : Option NodeRef) (p : Printer)
    (hv : voidTags.contains t = true) :
    pelemF (fuel + 1) (.element t a cs) prev parent p =
      ((openTagF t a [] prev parent p).2, none) := by
  have hl := (void_tag_facts t hv).1
  have hk := (void_tag_facts t hv).2
  simp only [pelemF, hl, hk, hv, condStep_false, Bool.or_self,
    Bool.false_eq_true, if_false, if_true]
  rw [openTagF_snd_children_indep]

/-- C8 witness: a `br` element given a text child prints as a childless
`br`. -/
theorem c8_void_children_witness : voidTags.contains "br" = true ∧
    pelemF 1 (.element "br" [] [.text "x".data]) none none
      (initPrinter okResp [] 80) =
    ((openTagF "br" [] [] none none (initPrinter okResp [] 80)).2, none) :=
  ⟨by decide, c8_void_children 0 "br" [] [.text "x".data] none none
    (initPrinter okResp [] 80) (by decide)⟩

/-- C1 (amended): a single `wrap` call keeps the line within the wrap
width unless the one token it writes (after the break's indentation and
`extra` continuation) alone exceeds it, and the token is always written
whole: the output grows by exactly `s`, or by a break followed by
`extra` and the left-trimmed `s`. -/
theorem c1_wrap_bound (p : Printer) (s extra : Str)
    (hl : p.inLiteral = false) (hk : p.inKeepSpace = false)
    (hls : LSinv p) (hw : 0 < p.wrapWidth) (hok : OkP p) :
    (p.wrap s extra).lineWidth ≤
      max p.wrapWidth ((blen (repeatStr p.indentStr p.level.toNat) +
        blen extra + blen (trimLeftSpaces s) : Nat) : Int) ∧
    ((p.wrap s extra).out = p.out ++ s ∨
     ∃ pre : Str, (p.wrap s extra).out =
       p.out ++ pre ++ extra ++ trimLeftSpaces s) := by
  unfold Printer.wrap
  rw [hl, hk]
  simp only [Bool.not_false, Bool.true_and]
  rw [decide_eq_true hw]
  simp only [Bool.true_and]
  cases hc : decide (p.lineWidth + (blen s : Int) > p.wrapWidth) with
  | false =>
    simp only [Bool.false_eq_true, if_false]
    have hle := of_decide_eq_false hc
    push_neg at hle
    constructor
    · rw [write_lineWidth_ok p s hok]
      exact le_max_of_le_left hle
    · exact Or.inl (write_out_ok p s hok)
  | true =>
    simp only [if_true]
    have he_lw : p.endl.lineWidth = 0 := by
      unfold Printer.endl
      rw [hl, hk]
      simp only [Bool.or_self, Bool.false_eq_true, if_false]
      cases hlsb : p.lineStart with
      | true => simpa using hls hlsb
      | false => simp
    have he_ls : p.endl.lineStart = true := by
      unfold Printer.endl
      rw [hl, hk]
      simp only [Bool.or_self, Bool.false_eq_true, if_false]
      cases hlsb : p.lineStart with
      | true => simpa using hlsb
      | false => simp
    have he_ok : OkP p.endl := okp_endl p hok
    have hm : p.endl.maybeIndent =
        p.endl.write (repeatStr p.endl.indentStr p.endl.level.toNat) := by
      unfold Printer.maybeIndent
      rw [endl_inLiteral, endl_inKeepSpace, hl, hk, he_ls]
      simp
    have hm_lw : (p.endl.maybeIndent).lineWidth =
        (blen (repeatStr p.indentStr p.level.toNat) : Int) := by
      rw [hm, write_lineWidth_ok _ _ he_ok, he_lw, endl_indentStr, endl_level]
      simp
    have hm_ok : OkP p.endl.maybeIndent := okp_maybeIndent _ he_ok
    have hfin_lw : ((p.endl.maybeIndent).write
        (extra ++ trimLeftSpaces s)).lineWidth =
        ((blen (repeatStr p.indentStr p.level.toNat) +
          blen extra + blen (trimLeftSpaces s) : Nat) : Int) := by
      rw [write_lineWidth_ok _ _ hm_ok, hm_lw, blen_append]
      push_cast
      ring
    constructor
    · rw [hfin_lw]
      exact le_max_right _ _
    · refine Or.inr ?_
      have hpre : p.out <+: (p.endl.maybeIndent).out :=
        (endl_out_pfx p).trans (maybeIndent_out_pfx p.endl)
      obtain ⟨pre, hpre⟩ := hpre
      refine ⟨pre, ?_⟩
      rw [write_out_ok _ _ hm_ok, ← hpre]
      simp [List.append_assoc]

/-- C1 witness: wrapping the oversized token ` abcd` at width 3 breaks
the line and writes the trimmed token whole. -/
theorem c1_wrap_bound_witness :
    ((initPrinter okResp "ii".data 3).wrap " abcd".data []).lineWidth ≤
      max (initPrinter okResp "ii".data 3).wrapWidth
        ((blen (repeatStr (initPrinter okResp "ii".data 3).indentStr
          (initPrinter okResp "ii".data 3).level.toNat) +
          blen [] + blen (trimLeftSpaces " abcd".data) : Nat) : Int) ∧
    (((initPrinter okResp "ii".data 3).wrap " abcd".data []).out =
       (initPrinter okResp "ii".data 3).out ++ " abcd".data ∨
     ∃ pre : Str,
       ((initPrinter okResp "ii".data 3).wrap " abcd".data []).out =
       (initPrinter okResp "ii".data 3).out ++ pre ++ [] ++
         trimLeftSpaces " abcd".data) :=
  c1_wrap_bound (initPrinter okResp "ii".data 3) " abcd".data []
    rfl rfl (fun _ => rfl) (by decide) ⟨rfl, rfl⟩


/-- Squeezing adjacent spaces only ever drops characters. -/
theorem sq_subset : ∀ (l : Str) (c : Char), c ∈ squeezeSpaces l → c ∈ l
  | [], c, h => by simp [squeezeSpaces] at h
  | [x], c, h => by simpa [squeezeSpaces] using h
  | x :: y :: rest, c, h => by
    simp only [squeezeSpaces] at h
    split at h
    · exact List.mem_cons_of_mem x (sq_subset (y :: rest) c h)
    · rcases List.mem_cons.mp h with h | h
      · exact h ▸ List.mem_cons_self x _
      · exact List.mem_cons_of_mem x (sq_subset (y :: rest) c h)

/-- A character of the whitespace-to-space map is a space or an
unchanged non-whitespace character. -/
theorem mem_wsToSpace (l : Str) (c : Char) (h : c ∈ wsToSpace l) :
    c = ' ' ∨ (c ∈ l ∧ isWS c = false) := by
  unfold wsToSpace at h
  obtain ⟨c0, hc0, hmap⟩ := List.mem_map.mp h
  by_cases hws : isWS c0 = true
  · rw [if_pos hws] at hmap
    exact Or.inl hmap.symm
  · rw [if_neg hws] at hmap
    subst hmap
    exact Or.inr ⟨hc0, by simpa using hws⟩

/-- Escaping introduces no new whitespace: if the source restricts its
Unicode whitespace to the ASCII class, so does the escaped text. -/
theorem escapeText_space (d : Str)
    (hd : ∀ c ∈ d, goIsSpace c = true → isWS c = true) :
    ∀ c ∈ escapeText d, goIsSpace c = true → isWS c = true := by
  intro c hc hgs
  unfold escapeText at hc
  obtain ⟨blk, hblk, hcblk⟩ := List.mem_flatten.mp hc
  obtain ⟨c0, hc0, hmap⟩ := List.mem_map.mp hblk
  subst hmap
  unfold escapeChar at hcblk
  split at hcblk
  · have : ∀ x ∈ "&amp;".data, goIsSpace x = false := by decide
    rw [this c hcblk] at hgs
    cases hgs
  · split at hcblk
    · have : ∀ x ∈ "&lt;".data, goIsSpace x = false := by decide
      rw [this c hcblk] at hgs
      cases hgs
    · split at hcblk
      · have : ∀ x ∈ "&gt;".data, goIsSpace x = false := by decide
        rw [this c hcblk] at hgs
        cases hgs
      · simp only [List.mem_singleton] at hcblk
        subst hcblk
        exact hd c hc0 hgs

/-- Dropping one leading space only drops a character. -/
theorem mem_dropOneLeading (l : Str) (c : Char)
    (h : c ∈ dropOneLeadingSpace l) : c ∈ l := by
  unfold dropOneLeadingSpace at h
  split at h
  · exact List.mem_cons_of_mem _ h
  · exact h

/-- Dropping one trailing space leaves a prefix. -/
theorem dropOneTrailing_pfx (l : Str) : dropOneTrailingSpace l <+: l := by
  unfold dropOneTrailingSpace dropOneLeadingSpace
  split
  · rename_i rest heq
    have hl : l = rest.reverse ++ [' '] := by
      have h2 := congrArg List.reverse heq
      simpa using h2
    rw [hl]
    exact ⟨[' '], rfl⟩
  · rw [List.reverse_reverse]

/-- The head survives prefix extension. -/
theorem head_of_pfx (l₁ l₂ : Str) (c : Char) (h : l₁ <+: l₂)
    (hc : l₁.head? = some c) : l₂.head? = some c := by
  obtain ⟨t, ht⟩ := h
  subst ht
  cases l₁ with
  | nil => cases hc
  | cons x xs => simpa using hc

/-- The head of a space-trimmed list is not a space. -/
theorem head_trimLeft (l : Str) :
    ∀ c, (trimLeftSpaces l).head? = some c → c ≠ ' ' := by
  induction l with
  | nil =>
    intro c hc
    cases hc
  | cons x xs ih =>
    intro c hc
    unfold trimLeftSpaces at hc ih
    rw [List.dropWhile_cons] at hc
    by_cases hx : x = ' '
    · rw [if_pos (by simpa using hx)] at hc
      exact ih c hc
    · rw [if_neg (by simpa using hx)] at hc
      simp only [List.head?_cons, Option.some_inj] at hc
      subst hc
      exact hx

/-- After removing one leading space from a list without double spaces,
the head is not a space. -/
theorem head_dropOne_noDbl (l : Str)
    (h : List.Chain' (fun a b => ¬(a = ' ' ∧ b = ' ')) l) :
    ∀ c, (dropOneLeadingSpace l).head? = some c → c ≠ ' ' := by
  rw [← trimLeft_eq_dropOne l h]
  exact head_trimLeft l


/-- The collapsed text of a text child of a non-inline element with no
siblings: every remaining whitespace character is a space, there are no
adjacent spaces, and neither end is a space. -/
theorem collapsed_props (d : Str) (t : String)
    (hinl : inlineTags.contains t = false)
    (hd : ∀ c ∈ d, goIsSpace c = true → isWS c = true) :
    (∀ c ∈ collapseText (escapeText d) none none (some (.elem t)),
      goIsSpace c = true → c = ' ') ∧
    List.Chain' (fun a b => ¬(a = ' ' ∧ b = ' '))
      (collapseText (escapeText d) none none (some (.elem t))) ∧
    (∀ c, (collapseText (escapeText d) none none (some (.elem t))).head? =
      some c → c ≠ ' ') ∧
    (∀ c, (collapseText (escapeText d) none none (some (.elem t))).getLast? =
      some c → c ≠ ' ') := by
  have hs : collapseText (escapeText d) none none (some (.elem t)) =
      dropOneTrailingSpace (dropOneLeadingSpace
        (collapseRunsSpec (escapeText d))) := by
    rw [collapseText_eq_spec]
    unfold collapseTextSpec
    have hmem : t ∉ inlineTags := by simpa using hinl
    simp [refHas, hmem]
  rw [hs]
  have hnd0 : List.Chain' (fun a b => ¬(a = ' ' ∧ b = ' '))
      (collapseRunsSpec (escapeText d)) := sq_noDbl _
  have hnd1 : List.Chain' (fun a b => ¬(a = ' ' ∧ b = ' '))
      (dropOneLeadingSpace (collapseRunsSpec (escapeText d))) :=
    noDbl_dropOne _ hnd0
  have hQ1base : ∀ c ∈ collapseRunsSpec (escapeText d),
      goIsSpace c = true → c = ' ' := by
    intro c hc hgs
    rcases mem_wsToSpace (escapeText d) c (sq_subset _ c hc) with h | h
    · exact h
    · rw [escapeText_space d hd c h.1 hgs] at h
      cases h.2
  refine ⟨?_, ?_, ?_, ?_⟩
  · intro c hc hgs
    exact hQ1base c (mem_dropOneLeading _ c
      ((dropOneTrailing_pfx _).subset hc)) hgs
  · unfold dropOneTrailingSpace
    exact noDbl_reverse _ (noDbl_dropOne _ (noDbl_reverse _ hnd1))
  · intro c hc
    exact head_dropOne_noDbl _ hnd0 c
      (head_of_pfx _ _ c (dropOneTrailing_pfx _) hc)
  · intro c hc
    unfold dropOneTrailingSpace at hc
    rw [List.getLast?_reverse] at hc
    exact head_dropOne_noDbl _ (noDbl_reverse _ hnd1) c hc

/-- Trimming Unicode whitespace is the identity when neither end is
whitespace. -/
theorem goTrimSpace_id (l : Str)
    (hh : ∀ c, l.head? = some c → goIsSpace c = false)
    (hl : ∀ c, l.getLast? = some c → goIsSpace c = false) :
    goTrimSpace l = l := by
  unfold goTrimSpace
  have h1 : l.dropWhile goIsSpace = l := by
    cases l with
    | nil => rfl
    | cons c rest =>
      rw [List.dropWhile_cons, if_neg]
      rw [hh c (by simp)]
      simp
  rw [h1]
  have h2 : l.reverse.dropWhile goIsSpace = l.reverse := by
    cases hr : l.reverse with
    | nil => rfl
    | cons c rest =>
      rw [List.dropWhile_cons, if_neg]
      have : l.getLast? = some c := by
        rw [← List.head?_reverse, hr]
        rfl
      rw [hl c this]
      simp
  rw [h2, List.reverse_reverse]

/-- The field splitter undone: on a list whose whitespace is single
interior spaces, the accumulated word and the split words joined by
single spaces rebuild the input. -/
theorem goFieldsAux_recon : ∀ (l : Str) (acc : Str),
    (∀ c ∈ l, goIsSpace c = true → c = ' ') →
    List.Chain' (fun a b => ¬(a = ' ' ∧ b = ' ')) l →
    (∀ c, l.getLast? = some c → c ≠ ' ') →
    ∃ w ws, goFieldsAux (some acc) l = w :: ws ∧
      w ++ joinTail ws = acc.reverse ++ l
  | [], acc, _, _, _ => ⟨acc.reverse, [], rfl, by simp [joinTail]⟩
  | c :: rest, acc, hsp, hnd, hlast => by
    cases hgc : goIsSpace c with
    | false =>
      obtain ⟨w, ws, heq, hjoin⟩ := goFieldsAux_recon rest (c :: acc)
        (fun x hx => hsp x (List.mem_cons_of_mem c hx)) hnd.tail
        (fun x hx => hlast x (by
          cases rest with
          | nil => cases hx
          | cons r rs =>
            rw [List.getLast?_cons_cons]
            exact hx))
      refine ⟨w, ws, ?_, ?_⟩
      · simp only [goFieldsAux, hgc, Bool.false_eq_true, if_false,
          Option.getD_some]
        exact heq
      · rw [hjoin]
        simp
    | true =>
      have hc : c = ' ' := hsp c (List.mem_cons_self _ _) hgc
      subst hc
      cases rest with
      | nil => exact absurd rfl (hlast ' ' (by simp))
      | cons c2 rest2 =>
        have hc2 : ¬ c2 = ' ' := fun h => (List.chain'_cons.mp hnd).1 ⟨rfl, h⟩
        have hgc2 : goIsSpace c2 = false := by
          cases hq : goIsSpace c2 with
          | false => rfl
          | true => exact absurd (hsp c2 (by simp) hq) hc2
        obtain ⟨w2, ws2, heq2, hjoin2⟩ := goFieldsAux_recon rest2 [c2]
          (fun x hx => hsp x (by simp [hx])) hnd.tail.tail
          (fun x hx => hlast x (by
            cases rest2 with
            | nil => cases hx
            | cons r rs =>
              rw [List.getLast?_cons_cons, List.getLast?_cons_cons]
              exact hx))
        refine ⟨acc.reverse, w2 :: ws2, ?_, ?_⟩
        · simp only [goFieldsAux, hgc, if_true, hgc2, Bool.false_eq_true,
            if_false, Option.getD_none]
          rw [heq2]
        · have hjt : joinTail (w2 :: ws2) = ' ' :: (w2 ++ joinTail ws2) := by
            simp [joinTail]
          rw [hjt, hjoin2]
          simp

/-- The field split of a nonempty single-spaced list rebuilds the list:
the first word, then each later word with one leading space. -/
theorem goFields_recon (l : Str)
    (hsp : ∀ c ∈ l, goIsSpace c = true → c = ' ')
    (hnd : List.Chain' (fun a b => ¬(a = ' ' ∧ b = ' ')) l)
    (hh : ∀ c, l.head? = some c → c ≠ ' ')
    (hlast : ∀ c, l.getLast? = some c → c ≠ ' ')
    (hne : l ≠ []) :
    ∃ w ws, goFields l = w :: ws ∧ w ++ joinTail ws = l := by
  cases l with
  | nil => exact absurd rfl hne
  | cons c rest =>
    have hc : ¬ c = ' ' := hh c (by simp)
    have hgc : goIsSpace c = false := by
      cases hq : goIsSpace c with
      | false => rfl
      | true => exact absurd (hsp c (by simp) hq) hc
    obtain ⟨w, ws, heq, hjoin⟩ := goFieldsAux_recon rest [c]
      (fun x hx => hsp x (List.mem_cons_of_mem c hx)) hnd.tail
      (fun x hx => hlast x (by
        cases rest with
        | nil => cases hx
        | cons r rs =>
          rw [List.getLast?_cons_cons]
          exact hx))
    refine ⟨w, ws, ?_, ?_⟩
    · unfold goFields
      simp only [goFieldsAux, hgc, Bool.false_eq_true, if_false,
        Option.getD_none]
      exact heq
    · rw [hjoin]
      simp


/-- On a healthy printer a write leaves the cursor mid-line. -/
theorem write_lineStart_ok (p : Printer) (s : Str) (h : OkP p) :
    (p.write s).lineStart = false := by
  unfold Printer.write
  rw [h.2]
  simp only [Option.isSome_none, Bool.false_eq_true, if_false]
  rw [h.1]
  rfl

/-- A wrap that cannot overflow — because the token fits or because
wrapping is disabled — is a plain write. -/
theorem wrap_nowrap (p : Printer) (s extra : Str)
    (h : ¬ p.wrapWidth < p.lineWidth + (blen s : Int) ∨ p.wrapWidth ≤ 0) :
    p.wrap s extra = p.write s := by
  unfold Printer.wrap
  rw [if_neg]
  intro hcond
  simp only [Bool.and_eq_true, decide_eq_true_eq] at hcond
  rcases h with h | h
  · exact h hcond.2
  · exact absurd hcond.1.2 (by omega)

/-- Mid-line, `maybeIndent` is a no-op. -/
theorem maybeIndent_midline (p : Printer) (h : p.lineStart = false) :
    p.maybeIndent = p := by
  unfold Printer.maybeIndent
  rw [h]
  simp

/-- The word loop from index one onward: when all remaining padded words
fit on the line, every word is written unwrapped and the output grows by
exactly the space-joined tail. -/
theorem writeWords_tail_nowrap : ∀ (ws : List Str) (i total : Nat)
    (p : Printer), 1 ≤ i → OkP p → p.inLiteral = false →
    p.inKeepSpace = false →
    (p.lineWidth + (blen (joinTail ws) : Int) ≤ p.wrapWidth ∨
      p.wrapWidth ≤ 0) →
    (writeWords false false 0 total i ws p).out = p.out ++ joinTail ws ∧
    (writeWords false false 0 total i ws p).lineWidth =
      p.lineWidth + (blen (joinTail ws) : Int) ∧
    OkP (writeWords false false 0 total i ws p) ∧
    (writeWords false false 0 total i ws p).lineStart =
      (if ws.isEmpty then p.lineStart else false) ∧
    (writeWords false false 0 total i ws p).wrapWidth = p.wrapWidth ∧
    (writeWords false false 0 total i ws p).inLiteral = false ∧
    (writeWords false false 0 total i ws p).inKeepSpace = false
  | [], i, total, p, _, hok, hl, hk, _ => by
    refine ⟨by simp [writeWords, joinTail, blen],
      by simp [writeWords, joinTail, blen],
      by simpa [writeWords] using hok, by simp [writeWords], rfl, hl, hk⟩
  | w :: ws, i, total, p, hi, hok, hl, hk, hbound => by
    have hcons : joinTail (w :: ws) = (' ' :: w) ++ joinTail ws := by
      simp [joinTail]
    have hsplit : (blen (joinTail (w :: ws)) : Int) =
        (blen (' ' :: w) : Int) + (blen (joinTail ws) : Int) := by
      rw [hcons, blen_append]
      push_cast
      ring
    have h0 : (0:Int) ≤ (blen (joinTail ws) : Int) := Int.natCast_nonneg _
    have hwnw : ¬ p.wrapWidth < p.lineWidth + (blen (' ' :: w) : Int) ∨
        p.wrapWidth ≤ 0 := by
      rcases hbound with hb | hb
      · left
        rw [hsplit] at hb
        exact not_lt.mpr (by linarith)
      · right
        exact hb
    simp only [writeWords, Bool.and_false, Bool.false_or,
      decide_eq_true (show i ≠ 0 by omega), if_true, Bool.false_and,
      Bool.false_eq_true, if_false, decide_eq_false (Nat.not_lt_zero i)]
    rw [wrap_nowrap p (' ' :: w) [] hwnw]
    simp only [ite_self]
    have hok2 : OkP (p.write (' ' :: w)) := okp_write p _ hok
    have ih := writeWords_tail_nowrap ws (i + 1) total (p.write (' ' :: w))
      (by omega) hok2 (by simpa using hl) (by simpa using hk)
      (by
        rcases hbound with hb | hb
        · left
          rw [write_lineWidth_ok p _ hok, write_wrapWidth]
          rw [hsplit] at hb
          linarith
        · right
          rw [write_wrapWidth]
          exact hb)
    refine ⟨?_, ?_, ih.2.2.1, ?_, ?_, ih.2.2.2.2.2.1, ih.2.2.2.2.2.2⟩
    · rw [ih.1, write_out_ok p _ hok, hcons]
      simp
    · rw [ih.2.1, write_lineWidth_ok p _ hok, hsplit]
      ring
    · rw [ih.2.2.2.1]
      cases ws with
      | nil => simpa using write_lineStart_ok p _ hok
      | cons a b => simp
    · rw [ih.2.2.2.2.1, write_wrapWidth]

/-- The full word loop of a promoted text node: the first word unpadded,
each later word with one leading space, all written unwrapped. -/
theorem writeWords_head_nowrap (w : Str) (ws : List Str) (total : Nat)
    (p : Printer) (hok : OkP p) (hl : p.inLiteral = false)
    (hk : p.inKeepSpace = false)
    (hbound : p.lineWidth + (blen (w ++ joinTail ws) : Int) ≤ p.wrapWidth ∨
      p.wrapWidth ≤ 0) :
    (writeWords false false 0 total 0 (w :: ws) p).out =
      p.out ++ (w ++ joinTail ws) ∧
    OkP (writeWords false false 0 total 0 (w :: ws) p) ∧
    (writeWords false false 0 total 0 (w :: ws) p).lineStart = false ∧
    (writeWords false false 0 total 0 (w :: ws) p).lineWidth =
      p.lineWidth + (blen (w ++ joinTail ws) : Int) := by
  have hsplit : (blen (w ++ joinTail ws) : Int) =
      (blen w : Int) + (blen (joinTail ws) : Int) := by
    rw [blen_append]
    push_cast
    ring
  have h0 : (0:Int) ≤ (blen (joinTail ws) : Int) := Int.natCast_nonneg _
  have hwnw : ¬ p.wrapWidth < p.lineWidth + (blen w : Int) ∨
      p.wrapWidth ≤ 0 := by
    rcases hbound with hb | hb
    · left
      rw [hsplit] at hb
      exact not_lt.mpr (by linarith)
    · right
      exact hb
  simp only [writeWords, Bool.and_false, Bool.false_or,
    decide_eq_false (show ¬(0:Nat) ≠ 0 from fun h => h rfl), Bool.false_and,
    Bool.false_eq_true, if_false, decide_eq_false (Nat.not_lt_zero 0)]
  rw [wrap_nowrap p w [] hwnw]
  simp only [ite_self]
  have hok2 : OkP (p.write w) := okp_write p _ hok
  have ih := writeWords_tail_nowrap ws 1 total (p.write w) (le_refl 1) hok2
    (by simpa using hl) (by simpa using hk)
    (by
      rcases hbound with hb | hb
      · left
        rw [write_lineWidth_ok p _ hok, write_wrapWidth]
        rw [hsplit] at hb
        linarith
      · right
        rw [write_wrapWidth]
        exact hb)
  refine ⟨?_, ih.2.2.1, ?_, ?_⟩
  · rw [ih.1, write_out_ok p _ hok]
    simp
  · rw [ih.2.2.2.1]
    cases ws with
    | nil => simpa using write_lineStart_ok p _ hok
    | cons a b => simp
  · rw [ih.2.1, write_lineWidth_ok p _ hok, hsplit]
    ring


/-- The head of a list is a member. -/
theorem mem_of_head (l : Str) (c : Char) (h : l.head? = some c) : c ∈ l := by
  cases l with
  | nil => cases h
  | cons x xs =>
    simp only [List.head?_cons, Option.some_inj] at h
    exact h ▸ List.mem_cons_self x xs

/-- The last element of a list is a member. -/
theorem mem_of_getLast (l : Str) (c : Char) (h : l.getLast? = some c) :
    c ∈ l := by
  rw [← List.head?_reverse] at h
  have := mem_of_head _ c h
  simpa using this

/-- A promoted text node in a non-inline, non-literal context writes
exactly its collapsed text on the current line, with no wrap and no
indentation, provided it fits within the wrap width. -/
theorem ptext_promoted (d : Str) (t : String) (p : Printer)
    (hinl : inlineTags.contains t = false)
    (hd : ∀ c ∈ d, goIsSpace c = true → isWS c = true)
    (hok : OkP p) (hpl : p.inLiteral = false) (hpk : p.inKeepSpace = false)
    (hlsF : p.lineStart = false)
    (hbound : p.lineWidth +
      (blen (collapseText (escapeText d) none none (some (.elem t))) : Int) ≤
      p.wrapWidth ∨ p.wrapWidth ≤ 0) :
    (ptext d none none (some (.elem t)) p).out =
      p.out ++ collapseText (escapeText d) none none (some (.elem t)) ∧
    OkP (ptext d none none (some (.elem t)) p) ∧
    (ptext d none none (some (.elem t)) p).lineStart = false ∧
    (ptext d none none (some (.elem t)) p).lineWidth =
      p.lineWidth +
      (blen (collapseText (escapeText d) none none (some (.elem t))) : Int) := by
  obtain ⟨hQ1, hQnd, hQh, hQl⟩ := collapsed_props d t hinl hd
  unfold ptext
  split
  · rename_i hd0
    have hdnil : d = [] := List.length_eq_zero.mp hd0
    subst hdnil
    have hs0 : collapseText (escapeText []) none none (some (.elem t)) = [] := by
      unfold collapseText escapeText collapseWS collapseWSAux
      simp [refHas, trimLeftSpaces, trimRightSpaces]
    rw [hs0]
    exact ⟨by simp, hok, hlsF, by simp [blen]⟩
  · rename_i hd0
    rw [hpl]
    simp only [Bool.false_eq_true, if_false]
    rw [hpk]
    simp only [Bool.false_eq_true, if_false]
    split
    · rename_i hsnil
      rw [hsnil]
      exact ⟨by simp, hok, hlsF, by simp [blen]⟩
    · rename_i hsne
      rw [maybeIndent_midline p hlsF]
      split
      · rename_i hsp1
        rw [hsp1] at hbound ⊢
        refine ⟨write_out_ok p _ hok, okp_write p _ hok,
          write_lineStart_ok p _ hok, ?_⟩
        rw [write_lineWidth_ok p _ hok]
      · rename_i hsp1
        have hgid : goTrimSpace (collapseText (escapeText d) none none
            (some (.elem t))) =
            collapseText (escapeText d) none none (some (.elem t)) := by
          refine goTrimSpace_id _ ?_ ?_
          · intro c hc
            cases hq : goIsSpace c with
            | false => rfl
            | true =>
              exact absurd (hQ1 c (mem_of_head _ c hc) hq) (hQh c hc)
          · intro c hc
            cases hq : goIsSpace c with
            | false => rfl
            | true =>
              exact absurd (hQ1 c (mem_of_getLast _ c hc) hq) (hQl c hc)
        obtain ⟨w, ws, heqf, hjoin⟩ := goFields_recon _ hQ1 hQnd hQh hQl hsne
        rw [hgid, heqf]
        rw [decide_eq_false (fun h => hQh ' ' h rfl),
          decide_eq_false (fun h => hQl ' ' h rfl)]
        have hrh : refHas inlineTags (some (NodeRef.elem t)) = false := by
          have hmem : t ∉ inlineTags := by simpa using hinl
          simp [refHas, hmem]
        rw [hrh]
        simp only [Bool.or_false, Bool.false_or, Bool.not_false,
          Bool.and_true, Bool.false_and, Bool.false_eq_true, if_false]
        have hW := writeWords_head_nowrap w ws (w :: ws).length p hok hpl hpk
          (by rw [hjoin]; exact hbound)
        rw [hjoin] at hW
        exact ⟨hW.1, hW.2.1, hW.2.2.1, hW.2.2.2⟩


/-- Outside literal and keep-space regions, `endl` reaches a fresh line
with zero width. -/
theorem endl_fresh (p : Printer) (hl : p.inLiteral = false)
    (hk : p.inKeepSpace = false) (hls : LSinv p) (hok : OkP p) :
    p.endl.lineStart = true ∧ p.endl.lineWidth = 0 := by
  unfold Printer.endl
  rw [hl, hk]
  simp only [Bool.or_self, Bool.false_eq_true, if_false]
  cases hlsb : p.lineStart with
  | true => exact ⟨by simpa using hlsb, by simpa using hls hlsb⟩
  | false => exact ⟨rfl, rfl⟩

/-- At a fresh line outside literal and keep-space regions,
`maybeIndent` writes the indentation. -/
theorem maybeIndent_fresh (p : Printer) (hl : p.inLiteral = false)
    (hk : p.inKeepSpace = false) (hls : p.lineStart = true) :
    p.maybeIndent = p.write (repeatStr p.indentStr p.level.toNat) := by
  unfold Printer.maybeIndent
  rw [hl, hk, hls]
  simp

/-- A character of a repeated indent string is a character of the
indent string. -/
theorem mem_repeatStr (s : Str) (n : Nat) (c : Char)
    (h : c ∈ repeatStr s n) : c ∈ s := by
  unfold repeatStr at h
  obtain ⟨blk, hblk, hc⟩ := List.mem_flatten.mp h
  rw [List.eq_of_mem_replicate hblk] at hc
  exact hc

/-- Entering children of an inline, non-list element changes nothing. -/
theorem enterKids_false (b : Bool) (p : Printer) : enterKids false b p = p := by
  simp [enterKids]

/-- Leaving children of an inline, non-list element changes nothing. -/
theorem leaveKids_false (p : Printer) : leaveKids false p = p := by
  simp [leaveKids]

/-- The token-emission loop of `openTag`: when all tokens fit on the
line (or wrapping is disabled), every token is written unwrapped and the
output grows by exactly the concatenated tokens. -/
theorem writeTokens_nowrap : ∀ (ts : List Str) (u : Nat) (wi : Str) (i : Nat)
    (p : Printer), OkP p → p.inLiteral = false → p.inKeepSpace = false →
    (p.lineWidth + (blen ts.flatten : Int) ≤ p.wrapWidth ∨
      p.wrapWidth ≤ 0) →
    (writeTokens u wi i ts p).out = p.out ++ ts.flatten ∧
    (writeTokens u wi i ts p).lineWidth =
      p.lineWidth + (blen ts.flatten : Int) ∧
    OkP (writeTokens u wi i ts p) ∧
    (writeTokens u wi i ts p).lineStart =
      (if ts.isEmpty then p.lineStart else false) ∧
    (writeTokens u wi i ts p).wrapWidth = p.wrapWidth ∧
    (writeTokens u wi i ts p).inLiteral = false ∧
    (writeTokens u wi i ts p).inKeepSpace = false
  | [], u, wi, i, p, hok, hl, hk, _ => by
    refine ⟨by simp [writeTokens, blen], by simp [writeTokens, blen],
      by simpa [writeTokens] using hok, by simp [writeTokens], rfl, hl, hk⟩
  | t :: rest, u, wi, i, p, hok, hl, hk, hbound => by
    have hsplit : (blen ((t :: rest).flatten) : Int) =
        (blen t : Int) + (blen rest.flatten : Int) := by
      rw [List.flatten_cons, blen_append]
      push_cast
      ring
    have h0 : (0:Int) ≤ (blen rest.flatten : Int) := Int.natCast_nonneg _
    have hwnw : ¬ p.wrapWidth < p.lineWidth + (blen t : Int) ∨
        p.wrapWidth ≤ 0 := by
      rcases hbound with hb | hb
      · left
        rw [hsplit] at hb
        exact not_lt.mpr (by linarith)
      · right
        exact hb
    simp only [writeTokens]
    rw [wrap_nowrap p t wi hwnw]
    simp only [ite_self]
    have hok2 : OkP (p.write t) := okp_write p _ hok
    have ih := writeTokens_nowrap rest u wi (i + 1) (p.write t) hok2
      (by simpa using hl) (by simpa using hk)
      (by
        rcases hbound with hb | hb
        · left
          rw [write_lineWidth_ok p _ hok, write_wrapWidth]
          rw [hsplit] at hb
          linarith
        · right
          rw [write_wrapWidth]
          exact hb)
    refine ⟨?_, ?_, ih.2.2.1, ?_, ?_, ih.2.2.2.2.2.1, ih.2.2.2.2.2.2⟩
    · rw [ih.1, write_out_ok p _ hok]
      simp
    · rw [ih.2.1, write_lineWidth_ok p _ hok, hsplit]
      ring
    · rw [ih.2.2.2.1]
      cases rest with
      | nil => simpa using write_lineStart_ok p _ hok
      | cons a b => simp
    · rw [ih.2.2.2.2.1, write_wrapWidth]

/-- The printer state at which `openTag` computes `forceInline`: fresh
line flushed, indentation written, depths untouched. -/
theorem endl_maybeIndent_state (p : Printer) (hpl : p.inLiteral = false)
    (hpk : p.inKeepSpace = false) (hlsi : LSinv p) (hok : OkP p) :
    ((p.endl).maybeIndent).lineWidth =
      (blen (repeatStr p.indentStr p.level.toNat) : Int) ∧
    ((p.endl).maybeIndent).wrapWidth = p.wrapWidth ∧
    ((p.endl).maybeIndent).inLiteral = false ∧
    ((p.endl).maybeIndent).inKeepSpace = false := by
  have hef := endl_fresh p hpl hpk hlsi hok
  have heok : OkP p.endl := okp_endl p hok
  have hmi : (p.endl).maybeIndent =
      p.endl.write (repeatStr p.indentStr p.level.toNat) := by
    rw [maybeIndent_fresh p.endl (by simpa using hpl) (by simpa using hpk)
      hef.1, endl_indentStr, endl_level]
  refine ⟨?_, by simp, by simp [hpl], by simp [hpk]⟩
  rw [hmi, write_lineWidth_ok _ _ heok, hef.2]
  simp

/-- The inline-promotion test of `openTag`, characterized: outside
literal and keep-space regions, a childless element or an element with
one text child is selected exactly when opening tag plus collapsed text
plus closing tag fit strictly within the wrap width at the current line
position, or wrapping is disabled. -/
theorem forceInline_iff (t : String) (d : Str) (tagLen : Nat) (q : Printer)
    (hlit : literalTags.contains t = false)
    (hks : keepSpaceTags.contains t = false)
    (hql : q.inLiteral = false) (hqk : q.inKeepSpace = false) :
    (forceInlineF t [] tagLen q = true ↔
      (q.lineWidth + ((tagLen + blen (closeTagStr t) : Nat) : Int) <
        q.wrapWidth ∨ q.wrapWidth ≤ 0)) ∧
    (forceInlineF t [.text d] tagLen q = true ↔
      (q.lineWidth + ((tagLen +
        blen (collapseText (escapeText d) none none (some (.elem t))) +
        blen (closeTagStr t) : Nat) : Int) < q.wrapWidth ∨
        q.wrapWidth ≤ 0)) := by
  refine ⟨?_, ?_⟩ <;>
  · unfold forceInlineF
    rw [hlit, hks, hql, hqk]
    simp


/-- The opening tag of a promoted element on a fresh line: when the
`forceInline` test succeeds and the tokens fit (or wrapping is off), the
whole opening tag is written after the indentation. -/
theorem openTagF_promoted (t : String) (attrs : List Attr) (ch : List Node)
    (prev parent : Option NodeRef) (p : Printer)
    (hinl : inlineTags.contains t = false)
    (hok : OkP p) (hpl : p.inLiteral = false) (hpk : p.inKeepSpace = false)
    (hlsi : LSinv p)
    (hfic : forceInlineF t ch (blen (openTagTokens t attrs).flatten)
      ((p.endl).maybeIndent) = true)
    (htokfit : (blen (repeatStr p.indentStr p.level.toNat) : Int) +
      (blen (openTagTokens t attrs).flatten : Int) ≤ p.wrapWidth ∨
      p.wrapWidth ≤ 0) :
    (openTagF t attrs ch prev parent p).1 = true ∧
    (openTagF t attrs ch prev parent p).2.out =
      p.endl.out ++ (repeatStr p.indentStr p.level.toNat ++
        (openTagTokens t attrs).flatten) ∧
    OkP (openTagF t attrs ch prev parent p).2 ∧
    (openTagF t attrs ch prev parent p).2.lineStart = false ∧
    (openTagF t attrs ch prev parent p).2.lineWidth =
      (blen (repeatStr p.indentStr p.level.toNat) : Int) +
      (blen (openTagTokens t attrs).flatten : Int) ∧
    (openTagF t attrs ch prev parent p).2.wrapWidth = p.wrapWidth ∧
    (openTagF t attrs ch prev parent p).2.inLiteral = false ∧
    (openTagF t attrs ch prev parent p).2.inKeepSpace = false := by
  have hoe : openTagEndl t (blen (openTagTokens t attrs).flatten) prev
      parent p = p.endl := by
    unfold openTagEndl
    rw [hinl]
    simp
  have hef := endl_fresh p hpl hpk hlsi hok
  have heok : OkP p.endl := okp_endl p hok
  have hmi : (p.endl).maybeIndent =
      p.endl.write (repeatStr p.indentStr p.level.toNat) := by
    rw [maybeIndent_fresh p.endl (by simpa using hpl) (by simpa using hpk)
      hef.1, endl_indentStr, endl_level]
  have hmok : OkP ((p.endl).maybeIndent) := okp_maybeIndent _ heok
  have hm_lw : ((p.endl).maybeIndent).lineWidth =
      (blen (repeatStr p.indentStr p.level.toNat) : Int) := by
    rw [hmi, write_lineWidth_ok _ _ heok, hef.2]
    simp
  have hm_out : ((p.endl).maybeIndent).out =
      p.endl.out ++ repeatStr p.indentStr p.level.toNat := by
    rw [hmi]
    exact write_out_ok _ _ heok
  have hww : ((p.endl).maybeIndent).wrapWidth = p.wrapWidth := by simp
  have hne : (openTagTokens t attrs).isEmpty = false := by
    rcases attrs with _ | ⟨a, as⟩ <;> rfl
  unfold openTagF
  dsimp only
  rw [hoe, hfic]
  have wt := writeTokens_nowrap (openTagTokens t attrs)
    (unwrapCount (openTagTokens t attrs) p.endl.lineStart
      (inlineTags.contains t) true (startSpaceMattersF prev parent)
      ((p.endl).maybeIndent)).1
    (unwrapCount (openTagTokens t attrs) p.endl.lineStart
      (inlineTags.contains t) true (startSpaceMattersF prev parent)
      ((p.endl).maybeIndent)).2
    0 ((p.endl).maybeIndent) hmok (by simp [hpl]) (by simp [hpk])
    (by
      rcases htokfit with hb | hb
      · left
        rw [hm_lw, hww]
        exact hb
      · right
        rw [hww]
        exact hb)
  refine ⟨rfl, ?_, wt.2.2.1, ?_, ?_, ?_, wt.2.2.2.2.2.1, wt.2.2.2.2.2.2⟩
  · rw [wt.1, hm_out]
    simp [List.append_assoc]
  · rw [wt.2.2.2.1, hne]
    simp
  · rw [wt.2.1, hm_lw]
  · rw [wt.2.2.2.2.1, hww]

/-- A promoted childless element renders on one line: opening tag
immediately followed by the closing tag, with no interior newline. -/
theorem c6_childless_render (fuel : Nat) (t : String) (attrs : List Attr)
    (prev parent : Option NodeRef) (p : Printer)
    (hinl : inlineTags.contains t = false)
    (hlit : literalTags.contains t = false)
    (hks : keepSpaceTags.contains t = false)
    (hvd : voidTags.contains t = false)
    (homit : omitCloseTags.contains t = false)
    (hok : OkP p) (hpl : p.inLiteral = false) (hpk : p.inKeepSpace = false)
    (hlsi : LSinv p)
    (hnlind : ('\n') ∉ p.indentStr) (hnlt : ('\n') ∉ t.data)
    (hnlatt : ('\n') ∉ (openTagTokens t attrs).flatten)
    (hfit : (blen (repeatStr p.indentStr p.level.toNat) : Int) +
      (blen (openTagTokens t attrs).flatten : Int) +
      (blen (closeTagStr t) : Int) < p.wrapWidth ∨ p.wrapWidth ≤ 0) :
    (pelemF (fuel + 1) (.element t attrs []) prev parent p).2 = none ∧
    (pelemF (fuel + 1) (.element t attrs []) prev parent p).1.out =
      p.endl.out ++ (repeatStr p.indentStr p.level.toNat ++
        (openTagTokens t attrs).flatten ++ closeTagStr t) ∧
    ∀ c ∈ repeatStr p.indentStr p.level.toNat ++
        (openTagTokens t attrs).flatten ++ closeTagStr t, c ≠ '\n' := by
  have hms := endl_maybeIndent_state p hpl hpk hlsi hok
  have hfic : forceInlineF t [] (blen (openTagTokens t attrs).flatten)
      ((p.endl).maybeIndent) = true := by
    rw [(forceInline_iff t [] (blen (openTagTokens t attrs).flatten)
      ((p.endl).maybeIndent) hlit hks hms.2.2.1 hms.2.2.2).1]
    rcases hfit with hb | hb
    · left
      rw [hms.1, hms.2.1]
      push_cast
      linarith
    · right
      rw [hms.2.1]
      exact hb
  obtain ⟨hF1, hOut3, hOk3, hLs3, hLw3, hWw3, hIl3, hIk3⟩ :=
    openTagF_promoted t attrs [] prev parent p hinl hok hpl hpk hlsi hfic
      (by
        rcases hfit with hb | hb
        · left
          have h0 : (0:Int) ≤ (blen (closeTagStr t) : Int) :=
            Int.natCast_nonneg _
          linarith
        · right
          exact hb)
  have hclose : closeTagStr t = "</".data ++ t.data ++ ">".data := by
    unfold closeTagStr
    rw [hvd, homit]
    simp
  simp only [pelemF, hF1, Bool.or_true, hlit, hks, condStep_false, hvd,
    Bool.false_eq_true, if_false, homit, Bool.not_true, Bool.not_false,
    pelemClose, condStep_true]
  rw [maybeIndent_midline _ hLs3]
  refine ⟨trivial, ?_, ?_⟩
  · rw [write_out_ok _ _ hOk3, hOut3]
    simp [List.append_assoc]
  · intro c hc hceq
    subst hceq
    simp only [List.mem_append] at hc
    rcases hc with (hc | hc) | hc
    · exact hnlind (mem_repeatStr _ _ _ hc)
    · exact hnlatt hc
    · rw [hclose] at hc
      simp only [List.mem_append] at hc
      rcases hc with (hc | hc) | hc
      · simp at hc
      · exact hnlt hc
      · simp at hc

/-- A promoted element with one text child renders on one line: opening
tag, collapsed text, closing tag, with no interior newline. -/
theorem c6_text_render (fuel : Nat) (t : String) (attrs : List Attr)
    (d : Str) (prev parent : Option NodeRef) (p : Printer)
    (hinl : inlineTags.contains t = false)
    (hlit : literalTags.contains t = false)
    (hks : keepSpaceTags.contains t = false)
    (hvd : voidTags.contains t = false)
    (hlst : listTags.contains t = false)
    (homit : omitCloseTags.contains t = false)
    (hd : ∀ c ∈ d, goIsSpace c = true → isWS c = true)
    (hok : OkP p) (hpl : p.inLiteral = false) (hpk : p.inKeepSpace = false)
    (hlsi : LSinv p)
    (hnlind : ('\n') ∉ p.indentStr) (hnlt : ('\n') ∉ t.data)
    (hnlatt : ('\n') ∉ (openTagTokens t attrs).flatten)
    (hfit : (blen (repeatStr p.indentStr p.level.toNat) : Int) +
      (blen (openTagTokens t attrs).flatten : Int) +
      (blen (collapseText (escapeText d) none none (some (.elem t))) : Int) +
      (blen (closeTagStr t) : Int) < p.wrapWidth ∨ p.wrapWidth ≤ 0) :
    (pelemF (fuel + 1 + 1) (.element t attrs [.text d]) prev parent p).2 =
      none ∧
    (pelemF (fuel + 1 + 1) (.element t attrs [.text d]) prev parent p).1.out =
      p.endl.out ++ (repeatStr p.indentStr p.level.toNat ++
        (openTagTokens t attrs).flatten ++
        collapseText (escapeText d) none none (some (.elem t)) ++
        closeTagStr t) ∧
    ∀ c ∈ repeatStr p.indentStr p.level.toNat ++
        (openTagTokens t attrs).flatten ++
        collapseText (escapeText d) none none (some (.elem t)) ++
        closeTagStr t, c ≠ '\n' := by
  have hms := endl_maybeIndent_state p hpl hpk hlsi hok
  have hfic : forceInlineF t [.text d] (blen (openTagTokens t attrs).flatten)
      ((p.endl).maybeIndent) = true := by
    rw [(forceInline_iff t d (blen (openTagTokens t attrs).flatten)
      ((p.endl).maybeIndent) hlit hks hms.2.2.1 hms.2.2.2).2]
    rcases hfit with hb | hb
    · left
      rw [hms.1, hms.2.1]
      push_cast
      linarith
    · right
      rw [hms.2.1]
      exact hb
  obtain ⟨hF1, hOut3, hOk3, hLs3, hLw3, hWw3, hIl3, hIk3⟩ :=
    openTagF_promoted t attrs [.text d] prev parent p hinl hok hpl hpk hlsi
      hfic (by
        rcases hfit with hb | hb
        · left
          have h0 : (0:Int) ≤ (blen (closeTagStr t) : Int) :=
            Int.natCast_nonneg _
          have h1 : (0:Int) ≤ (blen (collapseText (escapeText d) none none
              (some (.elem t))) : Int) := Int.natCast_nonneg _
          linarith
        · right
          exact hb)
  obtain ⟨hQ1, hQ2, hQ3, hQ4⟩ := collapsed_props d t hinl hd
  have hp := ptext_promoted d t (openTagF t attrs [.text d] prev parent p).2
    hinl hd hOk3 hIl3 hIk3 hLs3
    (by
      rcases hfit with hb | hb
      · left
        rw [hLw3, hWw3]
        have h0 : (0:Int) ≤ (blen (closeTagStr t) : Int) :=
          Int.natCast_nonneg _
        linarith
      · right
        rw [hWw3]
        exact hb)
  have hclose : closeTagStr t = "</".data ++ t.data ++ ">".data := by
    unfold closeTagStr
    rw [hvd, homit]
    simp
  simp only [pelemF, hF1, Bool.or_true, hlit, hks, condStep_false, hvd,
    Bool.false_eq_true, if_false, hlst, homit, Bool.not_true, Bool.false_or,
    enterKids_false, pkidsF, List.head?_nil, Option.map_none',
    leaveKids_false, pelemClose, Bool.not_false, condStep_true]
  rw [maybeIndent_midline _ hp.2.2.1]
  refine ⟨trivial, ?_, ?_⟩
  · rw [write_out_ok _ _ hp.2.1, hp.1, hOut3]
    simp [List.append_assoc]
  · intro c hc hceq
    subst hceq
    simp only [List.mem_append] at hc
    rcases hc with ((hc | hc) | hc) | hc
    · exact hnlind (mem_repeatStr _ _ _ hc)
    · exact hnlatt hc
    · exact absurd (hQ1 _ hc (by decide)) (by decide)
    · rw [hclose] at hc
      simp only [List.mem_append] at hc
      rcases hc with (hc | hc) | hc
      · simp at hc
      · exact hnlt hc
      · simp at hc

/-- C6 (amended): for a block (non-inline) element that is not literal,
keep-space, void, or omit-close, with any attributes and zero children
or exactly one text child: (1) the `forceInline` promotion test succeeds
exactly when the opening tag plus collapsed text plus closing tag fit
strictly within the wrap width at the current position, or wrapping is
disabled; and when additionally the tag is not a list-layout tag and the
full rendering after the indentation fits (or wrapping is disabled), the
element renders on a single line — (2) with zero children, opening tag
immediately followed by the closing tag, and (3) with one text child,
opening tag, collapsed text and closing tag — with no interior newline
in either case. -/
theorem c6_single_line (fuel : Nat) (t : String) (attrs : List Attr)
    (d : Str) (prev parent : Option NodeRef) (p : Printer)
    (hinl : inlineTags.contains t = false)
    (hlit : literalTags.contains t = false)
    (hks : keepSpaceTags.contains t = false)
    (hvd : voidTags.contains t = false)
    (hlst : listTags.contains t = false)
    (homit : omitCloseTags.contains t = false)
    (hd : ∀ c ∈ d, goIsSpace c = true → isWS c = true)
    (hok : OkP p) (hpl : p.inLiteral = false) (hpk : p.inKeepSpace = false)
    (hlsi : LSinv p)
    (hnlind : ('\n') ∉ p.indentStr) (hnlt : ('\n') ∉ t.data)
    (hnlatt : ('\n') ∉ (openTagTokens t attrs).flatten) :
    (∀ (tagLen : Nat) (q : Printer), q.inLiteral = false →
      q.inKeepSpace = false →
      ((forceInlineF t [] tagLen q = true ↔
        (q.lineWidth + ((tagLen + blen (closeTagStr t) : Nat) : Int) <
          q.wrapWidth ∨ q.wrapWidth ≤ 0)) ∧
      (forceInlineF t [.text d] tagLen q = true ↔
        (q.lineWidth + ((tagLen +
          blen (collapseText (escapeText d) none none (some (.elem t))) +
          blen (closeTagStr t) : Nat) : Int) < q.wrapWidth ∨
          q.wrapWidth ≤ 0)))) ∧
    ((blen (repeatStr p.indentStr p.level.toNat) : Int) +
        (blen (openTagTokens t attrs).flatten : Int) +
        (blen (closeTagStr t) : Int) < p.wrapWidth ∨ p.wrapWidth ≤ 0 →
      (pelemF (fuel + 1) (.element t attrs []) prev parent p).2 = none ∧
      (pelemF (fuel + 1) (.element t attrs []) prev parent p).1.out =
        p.endl.out ++ (repeatStr p.indentStr p.level.toNat ++
          (openTagTokens t attrs).flatten ++ closeTagStr t) ∧
      ∀ c ∈ repeatStr p.indentStr p.level.toNat ++
          (openTagTokens t attrs).flatten ++ closeTagStr t, c ≠ '\n') ∧
    ((blen (repeatStr p.indentStr p.level.toNat) : Int) +
        (blen (openTagTokens t attrs).flatten : Int) +
        (blen (collapseText (escapeText d) none none (some (.elem t))) : Int) +
        (blen (closeTagStr t) : Int) < p.wrapWidth ∨ p.wrapWidth ≤ 0 →
      (pelemF (fuel + 1 + 1) (.element t attrs [.text d]) prev parent p).2 =
        none ∧
      (pelemF (fuel + 1 + 1) (.element t attrs [.text d]) prev
          parent p).1.out =
        p.endl.out ++ (repeatStr p.indentStr p.level.toNat ++
          (openTagTokens t attrs).flatten ++
          collapseText (escapeText d) none none (some (.elem t)) ++
          closeTagStr t) ∧
      ∀ c ∈ repeatStr p.indentStr p.level.toNat ++
          (openTagTokens t attrs).flatten ++
          collapseText (escapeText d) none none (some (.elem t)) ++
          closeTagStr t, c ≠ '\n') :=
  ⟨fun tagLen q hql hqk => forceInline_iff t d tagLen q hlit hks hql hqk,
   fun hfit => c6_childless_render fuel t attrs prev parent p hinl hlit hks
     hvd homit hok hpl hpk hlsi hnlind hnlt hnlatt hfit,
   fun hfit => c6_text_render fuel t attrs d prev parent p hinl hlit hks hvd
     hlst homit hd hok hpl hpk hlsi hnlind hnlt hnlatt hfit⟩

/-- C6 witness: a `title` element with an `id` attribute renders on one
line at width 80, both childless and with text `Hello world`. -/
theorem c6_single_line_witness :
    ((pelemF (0 + 1) (.element "title" [⟨"id", "x".data⟩] [])
        none (some .other) (initPrinter okResp "  ".data 80)).2 = none ∧
      (pelemF (0 + 1) (.element "title" [⟨"id", "x".data⟩] [])
        none (some .other) (initPrinter okResp "  ".data 80)).1.out =
        (initPrinter okResp "  ".data 80).endl.out ++
          (repeatStr (initPrinter okResp "  ".data 80).indentStr
            (initPrinter okResp "  ".data 80).level.toNat ++
          (openTagTokens "title" [⟨"id", "x".data⟩]).flatten ++
          closeTagStr "title") ∧
      ∀ c ∈ repeatStr (initPrinter okResp "  ".data 80).indentStr
          (initPrinter okResp "  ".data 80).level.toNat ++
          (openTagTokens "title" [⟨"id", "x".data⟩]).flatten ++
          closeTagStr "title", c ≠ '\n') ∧
    ((pelemF (0 + 1 + 1) (.element "title" [⟨"id", "x".data⟩]
        [.text "Hello world".data]) none (some .other)
        (initPrinter okResp "  ".data 80)).2 = none ∧
      (pelemF (0 + 1 + 1) (.element "title" [⟨"id", "x".data⟩]
        [.text "Hello world".data]) none (some .other)
        (initPrinter okResp "  ".data 80)).1.out =
        (initPrinter okResp "  ".data 80).endl.out ++
          (repeatStr (initPrinter okResp "  ".data 80).indentStr
            (initPrinter okResp "  ".data 80).level.toNat ++
          (openTagTokens "title" [⟨"id", "x".data⟩]).flatten ++
          collapseText (escapeText "Hello world".data) none none
            (some (.elem "title")) ++
          closeTagStr "title") ∧
      ∀ c ∈ repeatStr (initPrinter okResp "  ".data 80).indentStr
          (initPrinter okResp "  ".data 80).level.toNat ++
          (openTagTokens "title" [⟨"id", "x".data⟩]).flatten ++
          collapseText (escapeText "Hello world".data) none none
            (some (.elem "title")) ++
          closeTagStr "title", c ≠ '\n') :=
  ⟨(c6_single_line 0 "title" [⟨"id", "x".data⟩] "Hello world".data none
      (some .other) (initPrinter okResp "  ".data 80) (by decide) (by decide)
      (by decide) (by decide) (by decide) (by decide) (by decide)
      ⟨rfl, rfl⟩ rfl rfl (fun _ => rfl) (by decide) (by decide)
      (by decide)).2.1 (by decide),
   (c6_single_line 0 "title" [⟨"id", "x".data⟩] "Hello world".data none
      (some .other) (initPrinter okResp "  ".data 80) (by decide) (by decide)
      (by decide) (by decide) (by decide) (by decide) (by decide)
      ⟨rfl, rfl⟩ rfl rfl (fun _ => rfl) (by decide) (by decide)
      (by decide)).2.2 (by decide)⟩

end HtmlPretty
